import Mathlib

/-!
Verification of the circuit engine in `src/circuits.rs`.

The Rust code represents a circuit as a `petgraph::DiGraph<Gate, Value>` with
`Value = bool`.  We embed it shallowly: a circuit is a list of gate kinds
(indexed by `NodeIndex`, i.e. insertion order) together with a list of directed
edges each carrying its boolean signal.  petgraph's `add_node` appends a node,
`update_edge a b v` sets the weight of the existing `a → b` edge if there is
one and otherwise appends a fresh edge, and `edges_directed (Incoming)`
iterates the edges whose target is the given node.  All petgraph index panics
(out-of-range `NodeIndex`) are reflected either as `Option` results or as
validity hypotheses on the theorems, matching how the repository only ever
passes handles previously returned by the construction API.
-/

/-- The gate kinds of `enum Gate` in `src/circuits.rs`. -/
inductive Gate where
  | Or
  | And
  | Xor
  | Not
  | Output
  | Input
  | MetaInput
deriving DecidableEq, Repr

/-- One directed wire of the graph: source node, target node and the carried
boolean signal (the edge weight of the `DiGraph`). -/
structure Edge where
  src : Nat
  tgt : Nat
  val : Bool
deriving DecidableEq, Repr

/-- A circuit: the node list (gate kind per `NodeIndex`, in creation order) and
the edge list (in creation order).  Mirrors `struct Circuit(DiGraph<Gate, Value>)`. -/
structure Circuit where
  nodes : List Gate
  edges : List Edge
deriving DecidableEq, Repr

namespace Circuit

/-- `Circuit::meta_input()`: the fixed handle of the synthetic source node. -/
def metaInput : Nat := 0

/-- `Circuit::new()`: a graph holding the single `MetaInput` node. -/
def new : Circuit := ⟨[Gate.MetaInput], []⟩

/-- The incoming wires of node `n`, in insertion order.  petgraph's
`edges_directed(n, Incoming)` yields the same set of edges (it iterates them
newest-first; every consumer in the source combines them commutatively). -/
def incoming (c : Circuit) (n : Nat) : List Edge :=
  c.edges.filter fun e => e.tgt == n

/-- petgraph `Graph::update_edge a b v`: update the weight of the existing
`a → b` edge, or add a fresh one.  `setEdgeVal` rewrites the first matching
edge of the list. -/
def setEdgeVal : List Edge → Nat → Nat → Bool → List Edge
  | [], _, _, _ => []
  | e :: es, a, b, v =>
    if e.src = a ∧ e.tgt = b then { e with val := v } :: es
    else e :: setEdgeVal es a b v

/-- petgraph `Graph::update_edge` on a circuit (both endpoints are assumed
valid node indices; petgraph panics otherwise, and every theorem below carries
the corresponding validity hypotheses). -/
def update_edge (c : Circuit) (a b : Nat) (v : Bool) : Circuit :=
  if c.edges.any fun e => e.src == a && e.tgt == b then
    { c with edges := setEdgeVal c.edges a b v }
  else
    { c with edges := c.edges ++ [⟨a, b, v⟩] }

/-- petgraph `add_node`: append the gate, return its index. -/
def add_node (c : Circuit) (g : Gate) : Circuit × Nat :=
  ({ c with nodes := c.nodes ++ [g] }, c.nodes.length)

/-- `Circuit::add_input`. -/
def add_input (c : Circuit) : Circuit × Nat :=
  let p := add_node c Gate.Input
  (update_edge p.1 metaInput p.2 false, p.2)

/-- `Circuit::add_or`. -/
def add_or (c : Circuit) (a b : Nat) : Circuit × Nat :=
  let p := add_node c Gate.Or
  (update_edge (update_edge p.1 a p.2 false) b p.2 false, p.2)

/-- `Circuit::add_xor`. -/
def add_xor (c : Circuit) (a b : Nat) : Circuit × Nat :=
  let p := add_node c Gate.Xor
  (update_edge (update_edge p.1 a p.2 false) b p.2 false, p.2)

/-- `Circuit::add_and`. -/
def add_and (c : Circuit) (a b : Nat) : Circuit × Nat :=
  let p := add_node c Gate.And
  (update_edge (update_edge p.1 a p.2 false) b p.2 false, p.2)

/-- `Circuit::add_not`. -/
def add_not (c : Circuit) (a : Nat) : Circuit × Nat :=
  let p := add_node c Gate.Not
  (update_edge p.1 a p.2 false, p.2)

/-- `Circuit::add_output`. -/
def add_output (c : Circuit) (a : Nat) : Circuit × Nat :=
  let p := add_node c Gate.Output
  (update_edge p.1 a p.2 false, p.2)

/-- `Circuit::set_input(input, value)`: rewrite the wire from `MetaInput` to
`input`.  The source asserts `self.0[input] == Gate::Input`; the theorems about
`set_input` carry that fact as a hypothesis. -/
def set_input (c : Circuit) (i : Nat) (v : Bool) : Circuit :=
  update_edge c metaInput i v

/-- `Circuit::get_1_in(gate)`: the single incoming signal. `none` models the
panics (wrong node index, wrong gate kind, fan-in different from 1). -/
def get_1_in (c : Circuit) (n : Nat) : Option Bool :=
  match c.nodes[n]? with
  | none => none
  | some g =>
    if g = Gate.Input ∨ g = Gate.Output ∨ g = Gate.Not then
      match incoming c n with
      | [e] => some e.val
      | _ => none
    else none

/-- `Circuit::get_2_in(gate)`: the two incoming signals (in wire insertion
order; petgraph iterates them newest-first, and the source combines the pair
with commutative operators only).  `none` models the panics. -/
def get_2_in (c : Circuit) (n : Nat) : Option (Bool × Bool) :=
  match c.nodes[n]? with
  | none => none
  | some g =>
    if g = Gate.Or ∨ g = Gate.Xor ∨ g = Gate.And then
      match incoming c n with
      | [e, f] => some (e.val, f.val)
      | _ => none
    else none

/-- `Circuit::update_order()`: the source calls `petgraph::algo::toposort` and
reverses the result.  petgraph's contract is that `toposort` returns the nodes
of an acyclic graph topologically ordered, every node before its successors.
For every circuit state reachable through this API each wire goes from a lower
to a higher node index (theorem `reachable_sane` below), so the identity
enumeration of the nodes is a topological order and serves as the canonical
representative; `.reverse` mirrors the `result.reverse()` of the source. -/
def update_order (c : Circuit) : List Nat :=
  (List.range c.nodes.length).reverse

/-- One step of the loop body of `Circuit::update_signals_once`: overwrite
every outgoing wire of node `n` with the computed value `v`. -/
def writeOut (c : Circuit) (n : Nat) (v : Bool) : Circuit :=
  { c with edges := c.edges.map fun e => if e.src == n then { e with val := v } else e }

/-- The `value` computed by the `match gate_type` of
`Circuit::update_signals_once` for one non-`MetaInput` node (`none` models the
assertion failures inside `get_1_in` / `get_2_in`). -/
def gateOut (c : Circuit) (n : Nat) : Option Bool :=
  match c.nodes[n]? with
  | none => none
  | some Gate.Or => (get_2_in c n).map fun p => p.1 || p.2
  | some Gate.Xor => (get_2_in c n).map fun p => xor p.1 p.2
  | some Gate.And => (get_2_in c n).map fun p => p.1 && p.2
  | some Gate.Not => (get_1_in c n).map fun b => !b
  | some Gate.Input => get_1_in c n
  | some Gate.Output => get_1_in c n
  | some Gate.MetaInput => none

/-- `Circuit::update_signals_once(order)`: process the nodes in the given
order; skip `MetaInput` (`continue`); for every other node compute its output
from its current incoming wires and overwrite all its outgoing wires.  `none`
models the panics (invalid index in `order`, fan-in assertion failures). -/
def update_signals_once (c : Circuit) (order : List Nat) : Option Circuit :=
  match order with
  | [] => some c
  | g :: rest =>
    match c.nodes[g]? with
    | none => none
    | some Gate.MetaInput => update_signals_once c rest
    | some _ =>
      match gateOut c g with
      | none => none
      | some v => update_signals_once (writeOut c g v) rest

/-- Iterated invocation of `update_signals_once` with one fixed order, the way
the repository drives the evaluator (`for _ in 0..k { circuit.update_signals_once(&order) }`). -/
def updateN (c : Circuit) (order : List Nat) : Nat → Option Circuit
  | 0 => some c
  | k + 1 => (updateN c order k).bind fun c' => update_signals_once c' order

/-- Generic dynamic-programming list: entry `n` is computed by `step` from the
list of all earlier entries. -/
def dpList (step : List α → Nat → α) : Nat → List α
  | 0 => []
  | n + 1 => dpList step n ++ [step (dpList step n) n]

/-- One entry of the rank table: `0` for a node without incoming wires,
otherwise one more than the largest rank among its predecessors. -/
def rankStep (c : Circuit) (acc : List Nat) (n : Nat) : Nat :=
  ((incoming c n).map fun e => acc.getD e.src 0 + 1).foldl max 0

/-- `Circuit::ranks()`: the source gives every edge weight `-1.0`, runs
`petgraph::algo::bellman_ford` from `MetaInput` and negates the distances,
i.e. it computes for every node the length of the longest path from node `0`.
For circuits whose wires all ascend in node index (every reachable state,
theorem `reachable_sane`) that longest-path table is computed here by dynamic
programming in index order; theorem `C6_ranks_longest_path` proves it equal to
the longest-path length, which is exactly the value bellman-ford produces. -/
def rankList (c : Circuit) : List Nat :=
  dpList (rankStep c) c.nodes.length

/-- The rank of one node. -/
def rank (c : Circuit) (n : Nat) : Nat :=
  (rankList c).getD n 0

/-- The largest rank in the circuit (`flip_ranks(&ranks).len() - 1` in the
repository's usage). -/
def maxRank (c : Circuit) : Nat :=
  (rankList c).foldl max 0

/-- The boolean function of one gate kind, applied to the list of incoming
signals; mirrors the `match gate_type` of `update_signals_once`
(`Input`/`Output` pass through, the rest are the boolean connectives).  The
fallback value for malformed fan-in is arbitrary and never reached under the
fan-in hypotheses. -/
def applyGate : Gate → List Bool → Bool
  | Gate.Or, [a, b] => a || b
  | Gate.Xor, [a, b] => xor a b
  | Gate.And, [a, b] => a && b
  | Gate.Not, [a] => !a
  | Gate.Output, [a] => a
  | Gate.Input, [a] => a
  | _, _ => false

/-- One entry of the settled-value table: apply the node's gate function to the
settled values of its predecessors; a wire leaving `MetaInput` permanently
carries the value stored on it (the evaluator skips `MetaInput`). -/
def denoteStep (c : Circuit) (acc : List Bool) (n : Nat) : Bool :=
  applyGate (c.nodes.getD n Gate.MetaInput)
    ((incoming c n).map fun e => if e.src = 0 then e.val else acc.getD e.src false)

/-- The settled value of every node: what each gate outputs once evaluation has
propagated all signals. -/
def denoteList (c : Circuit) : List Bool :=
  dpList (denoteStep c) c.nodes.length

/-- The settled output value of one node. -/
def denote (c : Circuit) (n : Nat) : Bool :=
  (denoteList c).getD n false

/-- The value node `n` would write to its outgoing wires right now: its gate
function applied to the current incoming signals. -/
def emitVal (c : Circuit) (n : Nat) : Bool :=
  applyGate (c.nodes.getD n Gate.MetaInput) ((incoming c n).map fun e => e.val)

/-- The synchronous image of one full evaluator pass: every wire not leaving
`MetaInput` receives the value its source computes from the pre-pass signals.
Theorem `update_once_eq_syncNext` proves that `update_signals_once` run with
the reversed topological order of `update_order` computes exactly this. -/
def syncNext (c : Circuit) : Circuit :=
  { c with edges := c.edges.map fun e =>
      if e.src = 0 then e else { e with val := emitVal c e.src } }

/-- Iterated synchronous passes. -/
def syncIter (c : Circuit) : Nat → Circuit
  | 0 => c
  | k + 1 => syncNext (syncIter c k)

/-- The settled circuit: every wire not leaving `MetaInput` carries the settled
output of its source node. -/
def settle (c : Circuit) : Circuit :=
  { c with edges := c.edges.map fun e =>
      if e.src = 0 then e else { e with val := denote c e.src } }

/-- `Circuit::half_adder`. -/
def half_adder (c : Circuit) (a b : Nat) : Circuit × Nat × Nat :=
  let ps := add_xor c a b
  let pc := add_and ps.1 a b
  (pc.1, ps.2, pc.2)

/-- `Circuit::full_adder`. -/
def full_adder (c : Circuit) (a b cin : Nat) : Circuit × Nat × Nat :=
  let paxb := add_xor c a b
  let ps := add_xor paxb.1 paxb.2 cin
  let pi1 := add_and ps.1 a b
  let pi2 := add_and pi1.1 cin paxb.2
  let pco := add_or pi2.1 pi1.2 pi2.2
  (pco.1, ps.2, pco.2)

/-- The `for i in 1..a.len()` loop of `Circuit::ripple_carry`, over the zipped
tail of the two input vectors, threading the carry node. -/
def rippleLoop (c : Circuit) (carry : Nat) : List (Nat × Nat) → Circuit × List Nat × Nat
  | [] => (c, [], carry)
  | p :: rest =>
    let q := full_adder c p.1 p.2 carry
    let r := rippleLoop q.1 q.2.2 rest
    (r.1, q.2.1 :: r.2.1, r.2.2)

/-- `Circuit::ripple_carry(a, b)`: `none` models the two fatal paths, the
`assert_eq!(a.len(), b.len())` and the out-of-bounds `a[0]` on empty inputs. -/
def ripple_carry (c : Circuit) (a b : List Nat) : Option (Circuit × List Nat × Nat) :=
  if a.length = b.length then
    match a, b with
    | a0 :: arest, b0 :: brest =>
      let h := half_adder c a0 b0
      let r := rippleLoop h.1 h.2.2 (arest.zip brest)
      some (r.1, h.2.1 :: r.2.1, r.2.2)
    | _, _ => none
  else none

end Circuit

/-- `get_bit(v, b)` of `src/circuits.rs` (`((v >> b) & 1) == 1`).  Rust `usize`
values are modelled as `Nat`; all theorems about these utilities bound the
inputs by the 64-bit `usize` domain, where the Rust operators agree with the
`Nat` ones. -/
def get_bit (v b : Nat) : Bool :=
  (v >>> b) &&& 1 == 1

/-- `set_bit(v, b, on)` of `src/circuits.rs`: `v | (1 << b)` when `on`, and the
value unchanged otherwise. -/
def set_bit (v b : Nat) (x : Bool) : Nat :=
  if x then v ||| (1 <<< b) else v

example : Circuit.new.nodes = [Gate.MetaInput] := rfl
example : (Circuit.add_input Circuit.new).2 = 1 := rfl
example : (Circuit.add_input Circuit.new).1.edges = [⟨0, 1, false⟩] := rfl
example : Circuit.update_order (Circuit.add_input Circuit.new).1 = [1, 0] := rfl

/-! ### Structural well-formedness predicates -/

namespace Circuit

/-- The structural invariants every reachable circuit state satisfies: node `0`
is the unique `MetaInput`, and every wire ascends in node index, never enters
node `0`, and targets an existing node.  (`check_invariants` of the source is
implied: ascending wires rule out cycles, and no wire enters `MetaInput`.) -/
def Sane (c : Circuit) : Prop :=
  c.nodes[0]? = some Gate.MetaInput ∧
  (∀ i ∈ List.range c.nodes.length, c.nodes[i]? = some Gate.MetaInput → i = 0) ∧
  ∀ e ∈ c.edges, 0 < e.tgt ∧ e.src < e.tgt ∧ e.tgt < c.nodes.length

/-- The fan-in a gate kind requires at evaluation time. -/
def fanIn : Gate → Nat
  | Gate.Or => 2
  | Gate.And => 2
  | Gate.Xor => 2
  | Gate.Not => 1
  | Gate.Output => 1
  | Gate.Input => 1
  | Gate.MetaInput => 0

/-- Every gate has exactly the fan-in its kind requires. -/
def ArityOk (c : Circuit) : Prop :=
  ∀ i ∈ List.range c.nodes.length, (incoming c i).length = fanIn (c.nodes.getD i Gate.MetaInput)

/-- A well-formed circuit: structurally sane and every gate has its required
fan-in (the lazily-enforced evaluation precondition of the source). -/
def WellFormed (c : Circuit) : Prop :=
  Sane c ∧ ArityOk c

instance (c : Circuit) : Decidable (Sane c) := by unfold Sane; infer_instance
instance (c : Circuit) : Decidable (ArityOk c) := by unfold ArityOk; infer_instance
instance (c : Circuit) : Decidable (WellFormed c) := by unfold WellFormed; infer_instance

/-! ### Generic dynamic-programming list lemmas -/

theorem dpList_length (step : List α → Nat → α) (n : Nat) : (dpList step n).length = n := by
  induction n with
  | zero => rfl
  | succ n ih => simp [dpList, ih]

theorem dpList_getElem? (step : List α → Nat → α) {m n : Nat} (h : m < n) :
    (dpList step n)[m]? = some (step (dpList step m) m) := by
  induction n with
  | zero => omega
  | succ n ih =>
    rcases Nat.lt_or_ge m n with h' | h'
    · rw [dpList, List.getElem?_append_left (by simpa [dpList_length] using h'), ih h']
    · have hmn : m = n := by omega
      subst hmn
      rw [dpList, List.getElem?_append_right (by simp [dpList_length]),
        dpList_length]
      simp

theorem dpList_getD (step : List α → Nat → α) {m n : Nat} (h : m < n) (d : α) :
    (dpList step n).getD m d = step (dpList step m) m := by
  rw [List.getD_eq_getElem?_getD, dpList_getElem? step h, Option.getD_some]

/-- Earlier dp entries agree between shorter and longer tables. -/
theorem dpList_agree (step : List α → Nat → α) {i m n : Nat} (him : i < m) (hin : i < n) (d : α) :
    (dpList step m).getD i d = (dpList step n).getD i d := by
  rw [dpList_getD step him, dpList_getD step hin]

/-! ### foldl max lemmas -/

theorem le_foldl_max (l : List Nat) (b : Nat) : b ≤ l.foldl max b := by
  induction l generalizing b with
  | nil => simp
  | cons x xs ih => exact le_trans (Nat.le_max_left b x) (ih (max b x))

theorem mem_le_foldl_max {a : Nat} {l : List Nat} (h : a ∈ l) (b : Nat) : a ≤ l.foldl max b := by
  induction l generalizing b with
  | nil => simp at h
  | cons x xs ih =>
    rcases List.mem_cons.mp h with rfl | h'
    · exact le_trans (Nat.le_max_right b a) (le_foldl_max xs (max b a))
    · exact ih h' (max b x)

theorem foldl_max_mem (l : List Nat) (b : Nat) : l.foldl max b ∈ l ∨ l.foldl max b = b := by
  induction l generalizing b with
  | nil => simp
  | cons x xs ih =>
    rcases ih (max b x) with h | h
    · exact Or.inl (List.mem_cons_of_mem x h)
    · rcases max_choice b x with h' | h'
      · exact Or.inr (by rw [List.foldl_cons, h, h'])
      · exact Or.inl (by rw [List.foldl_cons, h, h']; exact List.mem_cons_self x xs)

/-! ### incoming lemmas -/

theorem incoming_mem {c : Circuit} {n : Nat} {e : Edge} (h : e ∈ incoming c n) :
    e ∈ c.edges ∧ e.tgt = n := by
  have h' := List.mem_filter.mp h
  exact ⟨h'.1, by simpa using h'.2⟩

theorem mem_incoming {c : Circuit} {n : Nat} {e : Edge} (he : e ∈ c.edges) (ht : e.tgt = n) :
    e ∈ incoming c n :=
  List.mem_filter.mpr ⟨he, by simpa using ht⟩

/-- A circuit whose wires never enter node `0` has no incoming wires there. -/
theorem incoming_zero_eq_nil {c : Circuit} (h : ∀ e ∈ c.edges, 0 < e.tgt) :
    incoming c 0 = [] := by
  rw [incoming, List.filter_eq_nil_iff]
  intro e he
  have := h e he
  simp
  omega

/-- Filtering a value-mapped edge list: if the map preserves targets, incoming
lists map edge-for-edge. -/
theorem incoming_map_of_tgt_eq {c : Circuit} {f : Edge → Edge}
    (hf : ∀ e, (f e).tgt = e.tgt) (n : Nat) :
    incoming { c with edges := c.edges.map f } n = (incoming c n).map f := by
  rw [incoming, incoming, List.filter_map]
  congr 1
  apply List.filter_congr
  intro e _
  simp [Function.comp, hf e]

end Circuit

/-! ### update_edge and builder structure lemmas -/

namespace Circuit

theorem update_edge_nodes (c : Circuit) (a b : Nat) (v : Bool) :
    (update_edge c a b v).nodes = c.nodes := by
  unfold update_edge
  split <;> rfl

theorem update_edge_eq_append {c : Circuit} {a b : Nat} (v : Bool)
    (h : ∀ e ∈ c.edges, ¬(e.src = a ∧ e.tgt = b)) :
    update_edge c a b v = { c with edges := c.edges ++ [⟨a, b, v⟩] } := by
  have hany : (c.edges.any fun e => e.src == a && e.tgt == b) = false := by
    rw [List.any_eq_false]
    intro e he
    simpa using h e he
  rw [update_edge, hany]
  rfl

theorem setEdgeVal_append_of_no_match {es : List Edge} {a b : Nat} (v : Bool) (es' : List Edge)
    (h : ∀ e ∈ es, ¬(e.src = a ∧ e.tgt = b)) :
    setEdgeVal (es ++ es') a b v = es ++ setEdgeVal es' a b v := by
  induction es with
  | nil => rfl
  | cons e es ih =>
    rw [List.cons_append, setEdgeVal, if_neg (h e (List.mem_cons_self e es)), List.cons_append,
      ih fun f hf => h f (List.mem_cons_of_mem e hf)]

end Circuit

namespace Circuit

/-- Explicit form of the node-plus-two-wires step shared by `add_or`,
`add_xor`, `add_and` when the argument handles differ. -/
theorem add2_explicit {c : Circuit} {a b : Nat} (g : Gate)
    (hT : ∀ e ∈ c.edges, e.tgt < c.nodes.length) (hab : a ≠ b) :
    update_edge (update_edge ⟨c.nodes ++ [g], c.edges⟩ a c.nodes.length false)
        b c.nodes.length false
      = ⟨c.nodes ++ [g], c.edges ++ [⟨a, c.nodes.length, false⟩, ⟨b, c.nodes.length, false⟩]⟩ := by
  have h1 := @update_edge_eq_append ⟨c.nodes ++ [g], c.edges⟩ a c.nodes.length false
    fun e he h => absurd h.2 (Nat.ne_of_lt (hT e he))
  rw [h1]
  have hm : ∀ e ∈ c.edges ++ [(⟨a, c.nodes.length, false⟩ : Edge)],
      ¬(e.src = b ∧ e.tgt = c.nodes.length) := by
    intro e he h
    rcases List.mem_append.mp he with he' | he'
    · exact absurd h.2 (Nat.ne_of_lt (hT e he'))
    · simp at he'
      rw [he'] at h
      simp at h
      exact hab h
  have h2 := @update_edge_eq_append ⟨c.nodes ++ [g], c.edges ++ [⟨a, c.nodes.length, false⟩]⟩ b
    c.nodes.length false hm
  rw [h2]
  simp

/-- Explicit form of the same step when the two argument handles coincide: the
second `update_edge` finds the wire the first one added and only rewrites its
value, so the new gate receives a single incoming wire. -/
theorem add2_explicit_eq {c : Circuit} {a : Nat} (g : Gate)
    (hT : ∀ e ∈ c.edges, e.tgt < c.nodes.length) :
    update_edge (update_edge ⟨c.nodes ++ [g], c.edges⟩ a c.nodes.length false)
        a c.nodes.length false
      = ⟨c.nodes ++ [g], c.edges ++ [⟨a, c.nodes.length, false⟩]⟩ := by
  have h1 := @update_edge_eq_append ⟨c.nodes ++ [g], c.edges⟩ a c.nodes.length false
    fun e he h => absurd h.2 (Nat.ne_of_lt (hT e he))
  rw [h1]
  have hany : (((⟨c.nodes ++ [g], c.edges ++ [⟨a, c.nodes.length, false⟩]⟩ : Circuit)).edges.any
      fun e => e.src == a && e.tgt == c.nodes.length) = true := by
    simp
  rw [update_edge, if_pos hany]
  have : setEdgeVal (c.edges ++ [⟨a, c.nodes.length, false⟩]) a c.nodes.length false
      = c.edges ++ [⟨a, c.nodes.length, false⟩] := by
    rw [setEdgeVal_append_of_no_match false _ fun e he h => absurd h.2 (Nat.ne_of_lt (hT e he))]
    rw [setEdgeVal, if_pos ⟨rfl, rfl⟩]
  rw [this]

/-- Explicit form of the node-plus-one-wire step shared by `add_input`,
`add_not`, `add_output`. -/
theorem add1_explicit {c : Circuit} {a : Nat} (g : Gate)
    (hT : ∀ e ∈ c.edges, e.tgt < c.nodes.length) :
    update_edge ⟨c.nodes ++ [g], c.edges⟩ a c.nodes.length false
      = ⟨c.nodes ++ [g], c.edges ++ [⟨a, c.nodes.length, false⟩]⟩ :=
  @update_edge_eq_append ⟨c.nodes ++ [g], c.edges⟩ a c.nodes.length false
    fun e he h => absurd h.2 (Nat.ne_of_lt (hT e he))

theorem add_input_eq {c : Circuit} (hT : ∀ e ∈ c.edges, e.tgt < c.nodes.length) :
    add_input c = (⟨c.nodes ++ [Gate.Input], c.edges ++ [⟨0, c.nodes.length, false⟩]⟩,
      c.nodes.length) := by
  unfold add_input add_node metaInput
  exact congrArg (·, c.nodes.length) (add1_explicit Gate.Input hT)

theorem add_not_eq {c : Circuit} {a : Nat} (hT : ∀ e ∈ c.edges, e.tgt < c.nodes.length) :
    add_not c a = (⟨c.nodes ++ [Gate.Not], c.edges ++ [⟨a, c.nodes.length, false⟩]⟩,
      c.nodes.length) := by
  unfold add_not add_node
  exact congrArg (·, c.nodes.length) (add1_explicit Gate.Not hT)

theorem add_output_eq {c : Circuit} {a : Nat} (hT : ∀ e ∈ c.edges, e.tgt < c.nodes.length) :
    add_output c a = (⟨c.nodes ++ [Gate.Output], c.edges ++ [⟨a, c.nodes.length, false⟩]⟩,
      c.nodes.length) := by
  unfold add_output add_node
  exact congrArg (·, c.nodes.length) (add1_explicit Gate.Output hT)

theorem add_or_eq {c : Circuit} {a b : Nat} (hT : ∀ e ∈ c.edges, e.tgt < c.nodes.length)
    (hab : a ≠ b) :
    add_or c a b = (⟨c.nodes ++ [Gate.Or],
      c.edges ++ [⟨a, c.nodes.length, false⟩, ⟨b, c.nodes.length, false⟩]⟩, c.nodes.length) := by
  unfold add_or add_node
  exact congrArg (·, c.nodes.length) (add2_explicit Gate.Or hT hab)

theorem add_xor_eq {c : Circuit} {a b : Nat} (hT : ∀ e ∈ c.edges, e.tgt < c.nodes.length)
    (hab : a ≠ b) :
    add_xor c a b = (⟨c.nodes ++ [Gate.Xor],
      c.edges ++ [⟨a, c.nodes.length, false⟩, ⟨b, c.nodes.length, false⟩]⟩, c.nodes.length) := by
  unfold add_xor add_node
  exact congrArg (·, c.nodes.length) (add2_explicit Gate.Xor hT hab)

theorem add_and_eq {c : Circuit} {a b : Nat} (hT : ∀ e ∈ c.edges, e.tgt < c.nodes.length)
    (hab : a ≠ b) :
    add_and c a b = (⟨c.nodes ++ [Gate.And],
      c.edges ++ [⟨a, c.nodes.length, false⟩, ⟨b, c.nodes.length, false⟩]⟩, c.nodes.length) := by
  unfold add_and add_node
  exact congrArg (·, c.nodes.length) (add2_explicit Gate.And hT hab)

theorem add_and_eq_self {c : Circuit} {a : Nat} (hT : ∀ e ∈ c.edges, e.tgt < c.nodes.length) :
    add_and c a a = (⟨c.nodes ++ [Gate.And], c.edges ++ [⟨a, c.nodes.length, false⟩]⟩,
      c.nodes.length) := by
  unfold add_and add_node
  exact congrArg (·, c.nodes.length) (add2_explicit_eq Gate.And hT)

theorem incoming_mk_append (ns : List Gate) (es es' : List Edge) (n : Nat) :
    incoming ⟨ns, es ++ es'⟩ n = incoming ⟨ns, es⟩ n ++ es'.filter fun e => e.tgt == n := by
  simp [incoming, List.filter_append]

end Circuit

namespace Circuit

/-- The incoming wires of every node, forgetting the carried values. -/
def shape (c : Circuit) (n : Nat) : List (Nat × Nat) :=
  (incoming c n).map fun e => (e.src, e.tgt)

/-- `Grows c F`: `F` was obtained from `c` by construction steps (and possibly
value rewrites): every node of `c` is still there with the same kind, and its
incoming wiring shape is untouched. -/
def Grows (c F : Circuit) : Prop :=
  c.nodes <+: F.nodes ∧ ∀ n, n < c.nodes.length → shape F n = shape c n

theorem grows_refl (c : Circuit) : Grows c c :=
  ⟨List.prefix_refl _, fun _ _ => rfl⟩

theorem Grows.len {c F : Circuit} (h : Grows c F) : c.nodes.length ≤ F.nodes.length :=
  h.1.length_le

theorem grows_trans {c d F : Circuit} (h1 : Grows c d) (h2 : Grows d F) : Grows c F :=
  ⟨h1.1.trans h2.1, fun n hn => (h2.2 n (lt_of_lt_of_le hn h1.len)).trans (h1.2 n hn)⟩

theorem Grows.nodes_getElem? {c F : Circuit} (h : Grows c F) {i : Nat} {g : Gate}
    (hi : c.nodes[i]? = some g) : F.nodes[i]? = some g := by
  obtain ⟨t, ht⟩ := h.1
  have hlt : i < c.nodes.length := by
    by_contra hge
    rw [List.getElem?_eq_none (Nat.le_of_not_lt hge)] at hi
    exact Option.noConfusion hi
  rw [← ht, List.getElem?_append_left hlt]
  exact hi

/-- Node `n` of `c` is a gate of kind `g` whose incoming wires come from the
`srcs`, in order (values unconstrained). -/
def GateAt (c : Circuit) (n : Nat) (g : Gate) (srcs : List Nat) : Prop :=
  c.nodes[n]? = some g ∧ shape c n = srcs.map fun s => (s, n)

theorem GateAt.lt {c : Circuit} {n : Nat} {g : Gate} {srcs : List Nat}
    (h : GateAt c n g srcs) : n < c.nodes.length := by
  by_contra hge
  have := h.1
  rw [List.getElem?_eq_none (Nat.le_of_not_lt hge)] at this
  exact Option.noConfusion this

theorem GateAt.mono {c F : Circuit} {n : Nat} {g : Gate} {srcs : List Nat}
    (hg : Grows c F) (h : GateAt c n g srcs) : GateAt F n g srcs :=
  ⟨hg.nodes_getElem? h.1, (hg.2 n h.lt).trans h.2⟩

theorem Sane.tgts_lt {c : Circuit} (h : Sane c) : ∀ e ∈ c.edges, e.tgt < c.nodes.length :=
  fun e he => (h.2.2 e he).2.2

theorem Sane.len_pos {c : Circuit} (h : Sane c) : 0 < c.nodes.length := by
  by_contra hge
  have := h.1
  rw [List.getElem?_eq_none (Nat.le_of_not_lt hge)] at this
  exact Option.noConfusion this

/-- Appending one non-`MetaInput` node together with wires into it preserves
structural sanity. -/
theorem sane_append {c : Circuit} {g : Gate} {tail : List Edge}
    (hS : Sane c) (hgm : g ≠ Gate.MetaInput)
    (htail : ∀ e ∈ tail, e.tgt = c.nodes.length ∧ e.src < c.nodes.length) :
    Sane ⟨c.nodes ++ [g], c.edges ++ tail⟩ := by
  have hpos : 0 < c.nodes.length := hS.len_pos
  obtain ⟨h0, huniq, hedge⟩ := hS
  refine ⟨?_, ?_, ?_⟩
  · rw [List.getElem?_append_left hpos]
    exact h0
  · intro i hi hmeta
    simp only [List.length_append, List.length_cons, List.length_nil, List.mem_range] at hi
    rcases Nat.lt_or_ge i c.nodes.length with h' | h'
    · rw [List.getElem?_append_left h'] at hmeta
      exact huniq i (List.mem_range.mpr h') hmeta
    · have hieq : i = c.nodes.length := by omega
      subst hieq
      rw [List.getElem?_append_right h'] at hmeta
      simp at hmeta
      exact (hgm hmeta).elim
  · intro e he
    rcases List.mem_append.mp he with he' | he'
    · obtain ⟨h1, h2, h3⟩ := hedge e he'
      exact ⟨h1, h2, by simp; omega⟩
    · obtain ⟨h1, h2⟩ := htail e he'
      refine ⟨by omega, by omega, by simp [h1]⟩

/-- Appending one node with exactly its required fan-in of wires preserves the
arity invariant. -/
theorem arity_append {c : Circuit} {g : Gate} {tail : List Edge}
    (hA : ArityOk c) (hT : ∀ e ∈ c.edges, e.tgt < c.nodes.length)
    (htail : ∀ e ∈ tail, e.tgt = c.nodes.length) (hlen : tail.length = fanIn g) :
    ArityOk ⟨c.nodes ++ [g], c.edges ++ tail⟩ := by
  intro i hi
  simp only [List.length_append, List.length_cons, List.length_nil, List.mem_range] at hi
  rw [incoming_mk_append]
  rcases Nat.lt_or_ge i c.nodes.length with h' | h'
  · have htf : (tail.filter fun e => e.tgt == i) = [] := by
      rw [List.filter_eq_nil_iff]
      intro e he
      simp [htail e he]
      omega
    have hgd : (c.nodes ++ [g]).getD i Gate.MetaInput = c.nodes.getD i Gate.MetaInput := by
      rw [List.getD_eq_getElem?_getD, List.getD_eq_getElem?_getD, List.getElem?_append_left h']
    rw [htf, List.append_nil, hgd]
    exact hA i (List.mem_range.mpr h')
  · have hieq : i = c.nodes.length := by omega
    subst hieq
    have hof : incoming ⟨c.nodes ++ [g], c.edges⟩ c.nodes.length = [] := by
      rw [incoming, List.filter_eq_nil_iff]
      intro e he
      simp only [beq_iff_eq]
      exact Nat.ne_of_lt (hT e he)
    have htf : (tail.filter fun e => e.tgt == c.nodes.length) = tail :=
      List.filter_eq_self.mpr fun e he => by simp [htail e he]
    have hgd : (c.nodes ++ [g]).getD c.nodes.length Gate.MetaInput = g := by
      rw [List.getD_eq_getElem?_getD, List.getElem?_append_right (le_refl _)]
      simp
    rw [hof, htf, hgd, List.nil_append]
    exact hlen

end Circuit

namespace Circuit

theorem grows_append {c : Circuit} {g : Gate} {tail : List Edge}
    (htail : ∀ e ∈ tail, e.tgt = c.nodes.length) :
    Grows c ⟨c.nodes ++ [g], c.edges ++ tail⟩ := by
  refine ⟨⟨[g], rfl⟩, fun n hn => ?_⟩
  have htf : (tail.filter fun e => e.tgt == n) = [] := by
    rw [List.filter_eq_nil_iff]
    intro e he
    simp only [beq_iff_eq, htail e he]
    omega
  rw [shape, shape, incoming_mk_append, htf, List.append_nil]
  rfl

theorem gateAt_append {c : Circuit} {g : Gate} {tail : List Edge}
    (hT : ∀ e ∈ c.edges, e.tgt < c.nodes.length)
    (htail : ∀ e ∈ tail, e.tgt = c.nodes.length) :
    GateAt ⟨c.nodes ++ [g], c.edges ++ tail⟩ c.nodes.length g (tail.map fun e => e.src) := by
  constructor
  · rw [List.getElem?_append_right (le_refl _)]
    simp
  · have hof : incoming ⟨c.nodes ++ [g], c.edges⟩ c.nodes.length = [] := by
      rw [incoming, List.filter_eq_nil_iff]
      intro e he
      simp only [beq_iff_eq]
      exact Nat.ne_of_lt (hT e he)
    have htf : (tail.filter fun e => e.tgt == c.nodes.length) = tail :=
      List.filter_eq_self.mpr fun e he => by simp [htail e he]
    rw [shape, incoming_mk_append, hof, htf, List.nil_append, List.map_map]
    apply List.map_congr_left
    intro e he
    simp [htail e he]

theorem add_xor_step {c : Circuit} {a b : Nat} (hS : Sane c) (hA : ArityOk c)
    (ha : a < c.nodes.length) (hb : b < c.nodes.length) (hab : a ≠ b) :
    (add_xor c a b).2 = c.nodes.length ∧
    (add_xor c a b).1.nodes.length = c.nodes.length + 1 ∧
    Sane (add_xor c a b).1 ∧ ArityOk (add_xor c a b).1 ∧
    Grows c (add_xor c a b).1 ∧
    GateAt (add_xor c a b).1 c.nodes.length Gate.Xor [a, b] := by
  have htail : ∀ e ∈ [(⟨a, c.nodes.length, false⟩ : Edge), ⟨b, c.nodes.length, false⟩],
      e.tgt = c.nodes.length := by
    intro e he
    rcases List.mem_cons.mp he with rfl | he'
    · rfl
    · simp at he'
      rw [he']
  have htail2 : ∀ e ∈ [(⟨a, c.nodes.length, false⟩ : Edge), ⟨b, c.nodes.length, false⟩],
      e.tgt = c.nodes.length ∧ e.src < c.nodes.length := by
    intro e he
    rcases List.mem_cons.mp he with rfl | he'
    · exact ⟨rfl, ha⟩
    · simp at he'
      rw [he']
      exact ⟨rfl, hb⟩
  rw [add_xor_eq hS.tgts_lt hab]
  refine ⟨rfl, by simp, sane_append hS (by simp) htail2,
    arity_append hA hS.tgts_lt htail (by simp [fanIn]), grows_append htail, ?_⟩
  have := @gateAt_append c Gate.Xor [⟨a, c.nodes.length, false⟩, ⟨b, c.nodes.length, false⟩]
    hS.tgts_lt htail
  simpa using this

theorem add_and_step {c : Circuit} {a b : Nat} (hS : Sane c) (hA : ArityOk c)
    (ha : a < c.nodes.length) (hb : b < c.nodes.length) (hab : a ≠ b) :
    (add_and c a b).2 = c.nodes.length ∧
    (add_and c a b).1.nodes.length = c.nodes.length + 1 ∧
    Sane (add_and c a b).1 ∧ ArityOk (add_and c a b).1 ∧
    Grows c (add_and c a b).1 ∧
    GateAt (add_and c a b).1 c.nodes.length Gate.And [a, b] := by
  have htail : ∀ e ∈ [(⟨a, c.nodes.length, false⟩ : Edge), ⟨b, c.nodes.length, false⟩],
      e.tgt = c.nodes.length := by
    intro e he
    rcases List.mem_cons.mp he with rfl | he'
    · rfl
    · simp at he'
      rw [he']
  have htail2 : ∀ e ∈ [(⟨a, c.nodes.length, false⟩ : Edge), ⟨b, c.nodes.length, false⟩],
      e.tgt = c.nodes.length ∧ e.src < c.nodes.length := by
    intro e he
    rcases List.mem_cons.mp he with rfl | he'
    · exact ⟨rfl, ha⟩
    · simp at he'
      rw [he']
      exact ⟨rfl, hb⟩
  rw [add_and_eq hS.tgts_lt hab]
  refine ⟨rfl, by simp, sane_append hS (by simp) htail2,
    arity_append hA hS.tgts_lt htail (by simp [fanIn]), grows_append htail, ?_⟩
  have := @gateAt_append c Gate.And [⟨a, c.nodes.length, false⟩, ⟨b, c.nodes.length, false⟩]
    hS.tgts_lt htail
  simpa using this

theorem add_or_step {c : Circuit} {a b : Nat} (hS : Sane c) (hA : ArityOk c)
    (ha : a < c.nodes.length) (hb : b < c.nodes.length) (hab : a ≠ b) :
    (add_or c a b).2 = c.nodes.length ∧
    (add_or c a b).1.nodes.length = c.nodes.length + 1 ∧
    Sane (add_or c a b).1 ∧ ArityOk (add_or c a b).1 ∧
    Grows c (add_or c a b).1 ∧
    GateAt (add_or c a b).1 c.nodes.length Gate.Or [a, b] := by
  have htail : ∀ e ∈ [(⟨a, c.nodes.length, false⟩ : Edge), ⟨b, c.nodes.length, false⟩],
      e.tgt = c.nodes.length := by
    intro e he
    rcases List.mem_cons.mp he with rfl | he'
    · rfl
    · simp at he'
      rw [he']
  have htail2 : ∀ e ∈ [(⟨a, c.nodes.length, false⟩ : Edge), ⟨b, c.nodes.length, false⟩],
      e.tgt = c.nodes.length ∧ e.src < c.nodes.length := by
    intro e he
    rcases List.mem_cons.mp he with rfl | he'
    · exact ⟨rfl, ha⟩
    · simp at he'
      rw [he']
      exact ⟨rfl, hb⟩
  rw [add_or_eq hS.tgts_lt hab]
  refine ⟨rfl, by simp, sane_append hS (by simp) htail2,
    arity_append hA hS.tgts_lt htail (by simp [fanIn]), grows_append htail, ?_⟩
  have := @gateAt_append c Gate.Or [⟨a, c.nodes.length, false⟩, ⟨b, c.nodes.length, false⟩]
    hS.tgts_lt htail
  simpa using this

theorem add_input_step {c : Circuit} (hS : Sane c) (hA : ArityOk c) :
    (add_input c).2 = c.nodes.length ∧
    (add_input c).1.nodes.length = c.nodes.length + 1 ∧
    Sane (add_input c).1 ∧ ArityOk (add_input c).1 ∧
    Grows c (add_input c).1 ∧
    (add_input c).1.nodes[c.nodes.length]? = some Gate.Input ∧
    incoming (add_input c).1 c.nodes.length = [⟨0, c.nodes.length, false⟩] := by
  have htail : ∀ e ∈ [(⟨0, c.nodes.length, false⟩ : Edge)], e.tgt = c.nodes.length := by
    intro e he
    simp at he
    rw [he]
  have htail2 : ∀ e ∈ [(⟨0, c.nodes.length, false⟩ : Edge)],
      e.tgt = c.nodes.length ∧ e.src < c.nodes.length := by
    intro e he
    simp at he
    rw [he]
    exact ⟨rfl, hS.len_pos⟩
  rw [add_input_eq hS.tgts_lt]
  refine ⟨rfl, by simp, sane_append hS (by simp) htail2,
    arity_append hA hS.tgts_lt htail (by simp [fanIn]), grows_append htail, ?_, ?_⟩
  · rw [List.getElem?_append_right (le_refl _)]
    simp
  · have hof : incoming ⟨c.nodes ++ [Gate.Input], c.edges⟩ c.nodes.length = [] := by
      rw [incoming, List.filter_eq_nil_iff]
      intro e he
      simp only [beq_iff_eq]
      exact Nat.ne_of_lt (hS.tgts_lt e he)
    rw [incoming_mk_append, hof, List.nil_append]
    simp

theorem add_output_step {c : Circuit} {a : Nat} (hS : Sane c) (hA : ArityOk c)
    (ha : a < c.nodes.length) :
    (add_output c a).2 = c.nodes.length ∧
    (add_output c a).1.nodes.length = c.nodes.length + 1 ∧
    Sane (add_output c a).1 ∧ ArityOk (add_output c a).1 ∧
    Grows c (add_output c a).1 ∧
    (add_output c a).1.nodes[c.nodes.length]? = some Gate.Output ∧
    incoming (add_output c a).1 c.nodes.length = [⟨a, c.nodes.length, false⟩] := by
  have htail : ∀ e ∈ [(⟨a, c.nodes.length, false⟩ : Edge)], e.tgt = c.nodes.length := by
    intro e he
    simp at he
    rw [he]
  have htail2 : ∀ e ∈ [(⟨a, c.nodes.length, false⟩ : Edge)],
      e.tgt = c.nodes.length ∧ e.src < c.nodes.length := by
    intro e he
    simp at he
    rw [he]
    exact ⟨rfl, ha⟩
  rw [add_output_eq hS.tgts_lt]
  refine ⟨rfl, by simp, sane_append hS (by simp) htail2,
    arity_append hA hS.tgts_lt htail (by simp [fanIn]), grows_append htail, ?_, ?_⟩
  · rw [List.getElem?_append_right (le_refl _)]
    simp
  · have hof : incoming ⟨c.nodes ++ [Gate.Output], c.edges⟩ c.nodes.length = [] := by
      rw [incoming, List.filter_eq_nil_iff]
      intro e he
      simp only [beq_iff_eq]
      exact Nat.ne_of_lt (hS.tgts_lt e he)
    rw [incoming_mk_append, hof, List.nil_append]
    simp

end Circuit

namespace Circuit

/-- The settled-value table satisfies its defining recurrence at every node
whose incoming wires all come from strictly earlier nodes. -/
theorem denote_eq_step {c : Circuit} {n : Nat} (hn : n < c.nodes.length)
    (hsrc : ∀ e ∈ incoming c n, e.src < n) :
    denote c n = denoteStep c (denoteList c) n := by
  rw [denote, denoteList, dpList_getD _ hn]
  unfold denoteStep
  congr 1
  apply List.map_congr_left
  intro e he
  by_cases h0 : e.src = 0
  · simp [h0]
  · simp only [h0, if_false]
    exact dpList_agree _ (hsrc e he) (lt_trans (hsrc e he) hn) false

/-- The rank table satisfies its defining recurrence at every node whose
incoming wires all come from strictly earlier nodes. -/
theorem rank_eq_step {c : Circuit} {n : Nat} (hn : n < c.nodes.length)
    (hsrc : ∀ e ∈ incoming c n, e.src < n) :
    rank c n = rankStep c (rankList c) n := by
  rw [rank, rankList, dpList_getD _ hn]
  unfold rankStep
  congr 1
  apply List.map_congr_left
  intro e he
  rw [dpList_agree _ (hsrc e he) (lt_trans (hsrc e he) hn) 0]

theorem shape_pair {l : List Edge} {x y : Nat × Nat}
    (h : (l.map fun e => (e.src, e.tgt)) = [x, y]) :
    ∃ e f, l = [e, f] ∧ e.src = x.1 ∧ e.tgt = x.2 ∧ f.src = y.1 ∧ f.tgt = y.2 := by
  match l, h with
  | [e, f], h =>
    simp only [List.map_cons, List.map_nil, List.cons.injEq, and_true] at h
    exact ⟨e, f, rfl, by rw [← h.1], by rw [← h.1], by rw [← h.2], by rw [← h.2]⟩

theorem shape_single {l : List Edge} {x : Nat × Nat}
    (h : (l.map fun e => (e.src, e.tgt)) = [x]) :
    ∃ e, l = [e] ∧ e.src = x.1 ∧ e.tgt = x.2 := by
  match l, h with
  | [e], h =>
    simp only [List.map_cons, List.map_nil, List.cons.injEq, and_true] at h
    exact ⟨e, rfl, by rw [← h], by rw [← h]⟩

/-- Edges of a sane circuit enter their target from a strictly earlier node. -/
theorem sane_incoming_src_lt {c : Circuit} (hS : Sane c) {n : Nat} :
    ∀ e ∈ incoming c n, e.src < n := by
  intro e he
  obtain ⟨hmem, htgt⟩ := incoming_mem he
  have := (hS.2.2 e hmem).2.1
  omega

/-- Settled value of a two-input gate from the settled values of its operands. -/
theorem denote_gate2 {F : Circuit} {n a b : Nat} {g : Gate} (hS : Sane F)
    (hg : GateAt F n g [a, b]) (h0a : 0 < a) (h0b : 0 < b) :
    denote F n = applyGate g [denote F a, denote F b] := by
  obtain ⟨e, f, hl, hea, _, hfb, _⟩ := shape_pair hg.2
  rw [denote_eq_step hg.lt (sane_incoming_src_lt hS), denoteStep]
  have hk : F.nodes.getD n Gate.MetaInput = g := by
    rw [List.getD_eq_getElem?_getD, hg.1]
    rfl
  rw [hk, hl]
  simp only [List.map_cons, List.map_nil, hea, hfb]
  rw [if_neg (by omega), if_neg (by omega)]
  rfl

/-- Settled value of a one-input gate from the settled value of its operand. -/
theorem denote_gate1 {F : Circuit} {n a : Nat} {g : Gate} (hS : Sane F)
    (hg : GateAt F n g [a]) (h0a : 0 < a) :
    denote F n = applyGate g [denote F a] := by
  obtain ⟨e, hl, hea, _⟩ := shape_single hg.2
  rw [denote_eq_step hg.lt (sane_incoming_src_lt hS), denoteStep]
  have hk : F.nodes.getD n Gate.MetaInput = g := by
    rw [List.getD_eq_getElem?_getD, hg.1]
    rfl
  rw [hk, hl]
  simp only [List.map_cons, List.map_nil, hea]
  rw [if_neg (by omega)]
  rfl

/-- Settled value of an `Input` node: the value currently stored on its wire
from `MetaInput` (the value the last `set_input` wrote). -/
theorem denote_input {F : Circuit} {n : Nat} {v : Bool} (hS : Sane F)
    (hk : F.nodes[n]? = some Gate.Input) (hinc : incoming F n = [⟨0, n, v⟩]) :
    denote F n = v := by
  have hn : n < F.nodes.length := by
    by_contra hge
    rw [List.getElem?_eq_none (Nat.le_of_not_lt hge)] at hk
    exact Option.noConfusion hk
  have hsrc : ∀ e ∈ incoming F n, e.src < n := by
    rw [hinc]
    intro e he
    simp at he
    rw [he]
    show 0 < n
    have hmem : (⟨0, n, v⟩ : Edge) ∈ incoming F n := by
      rw [hinc]
      exact List.mem_singleton.mpr rfl
    exact (hS.2.2 _ (incoming_mem hmem).1).1
  rw [denote_eq_step hn hsrc, denoteStep, hinc]
  have hkd : F.nodes.getD n Gate.MetaInput = Gate.Input := by
    rw [List.getD_eq_getElem?_getD, hk]
    rfl
  rw [hkd]
  simp [applyGate]

end Circuit

namespace Circuit

theorem setEdgeVal_mem_shape {es : List Edge} {a b : Nat} {v : Bool} :
    ∀ e' ∈ setEdgeVal es a b v, ∃ e ∈ es, e'.src = e.src ∧ e'.tgt = e.tgt := by
  induction es with
  | nil => intro e' he'; simp [setEdgeVal] at he'
  | cons e es ih =>
    intro e' he'
    rw [setEdgeVal] at he'
    by_cases hm : e.src = a ∧ e.tgt = b
    · rw [if_pos hm] at he'
      rcases List.mem_cons.mp he' with rfl | hmem
      · exact ⟨e, List.mem_cons_self e es, rfl, rfl⟩
      · exact ⟨e', List.mem_cons_of_mem e hmem, rfl, rfl⟩
    · rw [if_neg hm] at he'
      rcases List.mem_cons.mp he' with rfl | hmem
      · exact ⟨e', List.mem_cons_self e' es, rfl, rfl⟩
      · obtain ⟨f, hf, h1, h2⟩ := ih e' hmem
        exact ⟨f, List.mem_cons_of_mem e hf, h1, h2⟩

theorem setEdgeVal_filter_tgt {es : List Edge} {i : Nat} {w v : Bool}
    (h : es.filter (fun e => e.tgt == i) = [⟨0, i, w⟩]) :
    (setEdgeVal es 0 i v).filter (fun e => e.tgt == i) = [⟨0, i, v⟩] ∧
    ∀ n, n ≠ i →
      (setEdgeVal es 0 i v).filter (fun e => e.tgt == n) = es.filter fun e => e.tgt == n := by
  induction es with
  | nil => simp at h
  | cons e es ih =>
    by_cases hm : e.src = 0 ∧ e.tgt = i
    · have hpass : (e.tgt == i) = true := by simp [hm.2]
      rw [List.filter_cons, if_pos hpass] at h
      rw [List.cons.injEq] at h
      obtain ⟨he, hrest⟩ := h
      rw [setEdgeVal, if_pos hm]
      constructor
      · rw [List.filter_cons]
        simp only [hm.2, beq_self_eq_true, if_pos]
        rw [hrest]
        rw [he]
      · intro n hn
        rw [List.filter_cons, List.filter_cons]
        have hfail : (e.tgt == n) = false := by
          simp only [beq_eq_false_iff_ne, ne_eq, hm.2]
          omega
        simp only [hfail, Bool.false_eq_true, if_false]
    · have htne : e.tgt ≠ i := by
        intro hti
        have hpass : (e.tgt == i) = true := by simp [hti]
        rw [List.filter_cons, if_pos hpass, List.cons.injEq] at h
        exact hm (by rw [h.1]; exact ⟨rfl, rfl⟩)
      have hfail : (e.tgt == i) = false := by simp [htne]
      rw [List.filter_cons, hfail] at h
      simp only [Bool.false_eq_true, if_false] at h
      obtain ⟨ih1, ih2⟩ := ih h
      rw [setEdgeVal, if_neg hm]
      constructor
      · rw [List.filter_cons, hfail]
        simp only [Bool.false_eq_true, if_false]
        exact ih1
      · intro n hn
        rw [List.filter_cons, List.filter_cons]
        by_cases hen : e.tgt = n
        · have hpass : (e.tgt == n) = true := by simp [hen]
          simp only [hpass, if_true]
          rw [ih2 n hn]
        · have hfailn : (e.tgt == n) = false := by simp [hen]
          simp only [hfailn, Bool.false_eq_true, if_false]
          exact ih2 n hn

/-- `set_input` when the `MetaInput → i` wire exists (as it does for every
`Input` node): it rewrites exactly that wire's value and nothing else. -/
theorem set_input_spec {c : Circuit} {i : Nat} {w : Bool} (v : Bool)
    (hinc : incoming c i = [⟨0, i, w⟩]) :
    (set_input c i v).nodes = c.nodes ∧
    incoming (set_input c i v) i = [⟨0, i, v⟩] ∧
    ∀ n, n ≠ i → incoming (set_input c i v) n = incoming c n := by
  have hmem : (⟨0, i, w⟩ : Edge) ∈ c.edges := by
    have : (⟨0, i, w⟩ : Edge) ∈ incoming c i := by
      rw [hinc]
      exact List.mem_singleton.mpr rfl
    exact (incoming_mem this).1
  have hany : (c.edges.any fun e => e.src == 0 && e.tgt == i) = true := by
    rw [List.any_eq_true]
    exact ⟨⟨0, i, w⟩, hmem, by simp⟩
  have hset : set_input c i v = { c with edges := setEdgeVal c.edges 0 i v } := by
    rw [set_input, metaInput, update_edge, if_pos hany]
  obtain ⟨h1, h2⟩ := @setEdgeVal_filter_tgt c.edges i w v hinc
  exact ⟨by rw [hset], by rw [hset]; exact h1, fun n hn => by rw [hset]; exact h2 n hn⟩

theorem set_input_sane {c : Circuit} {i : Nat} {w : Bool} (v : Bool) (hS : Sane c)
    (hinc : incoming c i = [⟨0, i, w⟩]) : Sane (set_input c i v) := by
  obtain ⟨hn, _, _⟩ := set_input_spec v hinc
  have hedges : ∀ e' ∈ (set_input c i v).edges, ∃ e ∈ c.edges, e'.src = e.src ∧ e'.tgt = e.tgt := by
    intro e' he'
    rw [set_input, metaInput, update_edge] at he'
    split at he'
    · exact setEdgeVal_mem_shape e' he'
    · rcases List.mem_append.mp he' with h' | h'
      · exact ⟨e', h', rfl, rfl⟩
      · simp at h'
        have : (⟨0, i, w⟩ : Edge) ∈ c.edges := by
          have : (⟨0, i, w⟩ : Edge) ∈ incoming c i := by
            rw [hinc]
            exact List.mem_singleton.mpr rfl
          exact (incoming_mem this).1
        exact ⟨⟨0, i, w⟩, this, by rw [h'], by rw [h']⟩
  refine ⟨by rw [hn]; exact hS.1, ?_, ?_⟩
  · intro j hj hmeta
    rw [hn] at hj hmeta
    exact hS.2.1 j hj hmeta
  · intro e' he'
    obtain ⟨e, he, h1, h2⟩ := hedges e' he'
    have := hS.2.2 e he
    rw [hn, h1, h2]
    exact this

theorem set_input_arity {c : Circuit} {i : Nat} {w : Bool} (v : Bool) (hA : ArityOk c)
    (hinc : incoming c i = [⟨0, i, w⟩]) : ArityOk (set_input c i v) := by
  obtain ⟨hn, h1, h2⟩ := set_input_spec v hinc
  intro j hj
  rw [hn] at hj ⊢
  by_cases hji : j = i
  · subst hji
    rw [h1]
    have := hA j hj
    rw [hinc] at this
    exact this
  · rw [h2 j hji]
    exact hA j hj

theorem set_input_grows {c : Circuit} {i : Nat} {w : Bool} (v : Bool)
    (hinc : incoming c i = [⟨0, i, w⟩]) : Grows c (set_input c i v) := by
  obtain ⟨hn, h1, h2⟩ := set_input_spec v hinc
  refine ⟨by rw [hn], fun n hnlt => ?_⟩
  by_cases hni : n = i
  · subst hni
    rw [shape, shape, h1, hinc]
    simp
  · rw [shape, shape, h2 n hni]

end Circuit

namespace Circuit

/-- The intermediate circuits of one `update_signals_once` pass: all out-wires
of the already-processed nodes `P` (except `MetaInput`) rewritten with the
values their sources computed from the pre-pass signals. -/
def partialSync (c : Circuit) (P : List Nat) : Circuit :=
  { c with edges := c.edges.map fun e =>
      if e.src ≠ 0 ∧ e.src ∈ P then { e with val := emitVal c e.src } else e }

theorem get_1_in_congr {c c' : Circuit} (hn : c'.nodes = c.nodes) {u : Nat}
    (hi : incoming c' u = incoming c u) : get_1_in c' u = get_1_in c u := by
  rw [get_1_in, get_1_in, hn, hi]

theorem get_2_in_congr {c c' : Circuit} (hn : c'.nodes = c.nodes) {u : Nat}
    (hi : incoming c' u = incoming c u) : get_2_in c' u = get_2_in c u := by
  rw [get_2_in, get_2_in, hn, hi]

theorem gateOut_congr {c c' : Circuit} (hn : c'.nodes = c.nodes) {u : Nat}
    (hi : incoming c' u = incoming c u) : gateOut c' u = gateOut c u := by
  rw [gateOut, gateOut, hn, get_1_in_congr hn hi, get_2_in_congr hn hi]

/-- When a node exists, is not `MetaInput` and has its required fan-in, the
evaluator's per-node computation succeeds and produces the gate function of the
current incoming signals. -/
theorem gateOut_eq_emitVal {c : Circuit} {n : Nat} {g : Gate}
    (hk : c.nodes[n]? = some g) (hgm : g ≠ Gate.MetaInput)
    (har : (incoming c n).length = fanIn g) :
    gateOut c n = some (emitVal c n) := by
  have hkd : c.nodes.getD n Gate.MetaInput = g := by
    rw [List.getD_eq_getElem?_getD, hk]
    rfl
  cases g with
  | MetaInput => exact absurd rfl hgm
  | Or =>
    obtain ⟨e, f, hef⟩ := List.length_eq_two.mp har
    simp [gateOut, get_2_in, hk, hef, emitVal, hkd, applyGate]
  | Xor =>
    obtain ⟨e, f, hef⟩ := List.length_eq_two.mp har
    simp [gateOut, get_2_in, hk, hef, emitVal, hkd, applyGate]
  | And =>
    obtain ⟨e, f, hef⟩ := List.length_eq_two.mp har
    simp [gateOut, get_2_in, hk, hef, emitVal, hkd, applyGate]
  | Not =>
    obtain ⟨e, hef⟩ := List.length_eq_one.mp har
    simp [gateOut, get_1_in, hk, hef, emitVal, hkd, applyGate]
  | Output =>
    obtain ⟨e, hef⟩ := List.length_eq_one.mp har
    simp [gateOut, get_1_in, hk, hef, emitVal, hkd, applyGate]
  | Input =>
    obtain ⟨e, hef⟩ := List.length_eq_one.mp har
    simp [gateOut, get_1_in, hk, hef, emitVal, hkd, applyGate]

theorem partialSync_nodes (c : Circuit) (P : List Nat) : (partialSync c P).nodes = c.nodes := rfl

theorem circuit_ext {c₁ c₂ : Circuit} (h1 : c₁.nodes = c₂.nodes) (h2 : c₁.edges = c₂.edges) :
    c₁ = c₂ := by
  cases c₁
  cases c₂
  simp only [Circuit.mk.injEq]
  exact ⟨h1, h2⟩

theorem partialSync_nil (c : Circuit) : partialSync c [] = c := by
  rw [partialSync]
  have : (c.edges.map fun e =>
      if e.src ≠ 0 ∧ e.src ∈ ([] : List Nat) then { e with val := emitVal c e.src } else e)
      = c.edges := by
    rw [List.map_congr_left fun (e : Edge) _ => by
      rw [if_neg fun hf => List.not_mem_nil e.src hf.2], List.map_id']
  rw [this]

theorem partialSync_zero_mem (c : Circuit) (P : List Nat) :
    partialSync c (P ++ [0]) = partialSync c P := by
  rw [partialSync, partialSync]
  have : ∀ e ∈ c.edges,
      (if e.src ≠ 0 ∧ e.src ∈ P ++ [0] then { e with val := emitVal c e.src } else e)
      = (if e.src ≠ 0 ∧ e.src ∈ P then { e with val := emitVal c e.src } else e) := by
    intro e _
    by_cases h0 : e.src = 0
    · rw [if_neg (by simp [h0]), if_neg (by simp [h0])]
    · by_cases hP : e.src ∈ P
      · rw [if_pos ⟨h0, by simp [hP]⟩, if_pos ⟨h0, hP⟩]
      · rw [if_neg (by simp [h0, hP]), if_neg (by simp [h0, hP])]
  rw [List.map_congr_left this]

theorem partialSync_untouched_incoming {c : Circuit} {P : List Nat} {u : Nat}
    (h : ∀ e ∈ incoming c u, ¬(e.src ≠ 0 ∧ e.src ∈ P)) :
    incoming (partialSync c P) u = incoming c u := by
  rw [partialSync]
  have hmap := @incoming_map_of_tgt_eq c
    (fun e => if e.src ≠ 0 ∧ e.src ∈ P then { e with val := emitVal c e.src } else e)
    (fun e => by dsimp only; split <;> rfl) u
  rw [hmap, List.map_congr_left fun e he => if_neg (h e he), List.map_id']

theorem writeOut_partialSync {c : Circuit} {P : List Nat} {u : Nat} (hu0 : u ≠ 0) :
    writeOut (partialSync c P) u (emitVal c u) = partialSync c (P ++ [u]) := by
  rw [writeOut, partialSync, partialSync, List.map_map]
  refine circuit_ext rfl ?_
  apply List.map_congr_left
  intro e _
  simp only [Function.comp]
  by_cases hsu : e.src = u
  · subst hsu
    by_cases hP : e.src ∈ P
    · simp [hP, hu0]
    · simp [hP, hu0]
  · by_cases h0 : e.src = 0
    · simp [hsu, h0]
      intro h
      exact absurd h.symm hu0
    · by_cases hP : e.src ∈ P
      · simp [hsu, h0, hP]
      · simp [hsu, h0, hP]

end Circuit

namespace Circuit

theorem uso_nil (c : Circuit) : update_signals_once c [] = some c := rfl

theorem uso_cons_meta {c : Circuit} {u : Nat} (r : List Nat)
    (hk : c.nodes[u]? = some Gate.MetaInput) :
    update_signals_once c (u :: r) = update_signals_once c r := by
  rw [update_signals_once, hk]

theorem uso_cons_gate {c : Circuit} {u : Nat} (r : List Nat) {g : Gate} {v : Bool}
    (hk : c.nodes[u]? = some g) (hm : g ≠ Gate.MetaInput) (hv : gateOut c u = some v) :
    update_signals_once c (u :: r) = update_signals_once (writeOut c u v) r := by
  rw [update_signals_once, hk, hv]
  cases g <;> first | rfl | exact absurd rfl hm

/-- Processing a reversed-topological suffix `rest` of the order, starting from
the state where the nodes of `P` have already written their outputs, lands in
the state where `P ++ rest` have written theirs.  This is the heart of the
equivalence between the sequential evaluator and the synchronous pass: because
every wire into a node of `rest` comes from `MetaInput` or from a node
processed later, each node still reads pre-pass signals when its turn comes. -/
theorem uso_partial {c : Circuit} (hwf : WellFormed c) :
    ∀ rest P : List Nat,
      (∀ u ∈ rest, u < c.nodes.length) →
      List.Pairwise (fun x y => ∀ e ∈ c.edges, ¬(e.src = x ∧ e.tgt = y)) rest →
      (∀ e ∈ c.edges, e.tgt ∈ rest → e.src ≠ 0 → e.src ∉ P) →
      update_signals_once (partialSync c P) rest = some (partialSync c (P ++ rest)) := by
  intro rest
  induction rest with
  | nil =>
    intro P _ _ _
    rw [uso_nil, List.append_nil]
  | cons u rest ih =>
    intro P hlen hpw hP
    have hu : u < c.nodes.length := hlen u (List.mem_cons_self u rest)
    obtain ⟨g, hg⟩ : ∃ g, c.nodes[u]? = some g :=
      ⟨c.nodes[u], List.getElem?_eq_getElem hu⟩
    have hg' : (partialSync c P).nodes[u]? = some g := hg
    have hpw' := (List.pairwise_cons.mp hpw).2
    have hhead := (List.pairwise_cons.mp hpw).1
    by_cases hmeta : g = Gate.MetaInput
    · have hu0 : u = 0 := hwf.1.2.1 u (List.mem_range.mpr hu) (by rw [hg, hmeta])
      rw [uso_cons_meta rest (by rw [hg', hmeta])]
      have hstep : partialSync c P = partialSync c (P ++ [u]) := by
        rw [hu0, partialSync_zero_mem]
      rw [hstep]
      have := ih (P ++ [u]) (fun x hx => hlen x (List.mem_cons_of_mem u hx)) hpw' ?hmaint
      · rw [this, List.append_assoc]
        rfl
      case hmaint =>
        intro e he ht h0 hmem
        rcases List.mem_append.mp hmem with h' | h'
        · exact hP e he (List.mem_cons_of_mem u ht) h0 h'
        · simp at h'
          rw [hu0] at h'
          exact h0 h'
    · have hu0 : u ≠ 0 := by
        intro h
        rw [h, hwf.1.1] at hg
        exact hmeta (Option.some.injEq _ _ ▸ hg.symm)
      have hinc : incoming (partialSync c P) u = incoming c u := by
        apply partialSync_untouched_incoming
        intro e he hc
        obtain ⟨hmem, htgt⟩ := incoming_mem he
        exact hP e hmem (htgt ▸ List.mem_cons_self u rest) hc.1 hc.2
      have har : (incoming c u).length = fanIn g := by
        have := hwf.2 u (List.mem_range.mpr hu)
        rwa [List.getD_eq_getElem?_getD, hg] at this
      have hout : gateOut (partialSync c P) u = some (emitVal c u) := by
        rw [@gateOut_congr c (partialSync c P) (partialSync_nodes c P) u hinc]
        exact gateOut_eq_emitVal hg hmeta har
      rw [uso_cons_gate rest hg' hmeta hout, writeOut_partialSync hu0]
      have := ih (P ++ [u]) (fun x hx => hlen x (List.mem_cons_of_mem u hx)) hpw' ?hmaint
      · rw [this, List.append_assoc]
        rfl
      case hmaint =>
        intro e he ht h0 hmem
        rcases List.mem_append.mp hmem with h' | h'
        · exact hP e he (List.mem_cons_of_mem u ht) h0 h'
        · simp at h'
          exact hhead e.tgt ht e he ⟨h', rfl⟩

end Circuit

namespace Circuit

/-- One invocation of the source's evaluator, run with the reversed topological
order that `update_order` produces, computes exactly one synchronous pass. -/
theorem update_once_eq_syncNext {c : Circuit} (hwf : WellFormed c) :
    update_signals_once c (update_order c) = some (syncNext c) := by
  have hlen : ∀ u ∈ update_order c, u < c.nodes.length := by
    intro u hu
    rw [update_order, List.mem_reverse, List.mem_range] at hu
    exact hu
  have hpw : List.Pairwise (fun x y => ∀ e ∈ c.edges, ¬(e.src = x ∧ e.tgt = y))
      (update_order c) := by
    rw [update_order, List.pairwise_reverse]
    apply (List.pairwise_lt_range c.nodes.length).imp
    intro x y hxy e he hc
    have := (hwf.1.2.2 e he).2.1
    omega
  have h := uso_partial hwf (update_order c) [] hlen hpw fun _ _ _ _ => List.not_mem_nil _
  rw [partialSync_nil, List.nil_append] at h
  rw [h]
  have : partialSync c (update_order c) = syncNext c := by
    rw [partialSync, syncNext]
    refine circuit_ext rfl ?_
    apply List.map_congr_left
    intro e he
    by_cases h0 : e.src = 0
    · rw [if_neg (by simp [h0]), if_pos h0]
    · have hmem : e.src ∈ update_order c := by
        rw [update_order, List.mem_reverse, List.mem_range]
        have := hwf.1.2.2 e he
        omega
      rw [if_pos ⟨h0, hmem⟩, if_neg h0]
  rw [this]

theorem syncNext_nodes (c : Circuit) : (syncNext c).nodes = c.nodes := rfl

theorem syncIter_nodes (c : Circuit) (k : Nat) : (syncIter c k).nodes = c.nodes := by
  induction k with
  | zero => rfl
  | succ k ih => rw [syncIter, syncNext_nodes, ih]

theorem shape_map_val {c : Circuit} {f : Edge → Edge}
    (hsrc : ∀ e, (f e).src = e.src) (htgt : ∀ e, (f e).tgt = e.tgt) (n : Nat) :
    shape { c with edges := c.edges.map f } n = shape c n := by
  rw [shape, shape, incoming_map_of_tgt_eq htgt, List.map_map]
  apply List.map_congr_left
  intro e _
  simp [Function.comp, hsrc e, htgt e]

theorem syncNext_shape (c : Circuit) (n : Nat) : shape (syncNext c) n = shape c n := by
  rw [syncNext]
  exact shape_map_val (fun e => by split <;> rfl) (fun e => by split <;> rfl) n

theorem incoming_length_of_shape {c d : Circuit} {n : Nat} (h : shape c n = shape d n) :
    (incoming c n).length = (incoming d n).length := by
  have := congrArg List.length h
  rwa [shape, shape, List.length_map, List.length_map] at this

/-- Any transformation that keeps the node list and all wiring shapes preserves
well-formedness (it is a purely structural predicate). -/
theorem wf_of_shape_eq {c d : Circuit} (hwf : WellFormed c) (hn : d.nodes = c.nodes)
    (hs : ∀ n, shape d n = shape c n)
    (hm : ∀ e' ∈ d.edges, ∃ e ∈ c.edges, e'.src = e.src ∧ e'.tgt = e.tgt) :
    WellFormed d := by
  obtain ⟨⟨h0, huniq, hedge⟩, har⟩ := hwf
  refine ⟨⟨by rw [hn]; exact h0, ?_, ?_⟩, ?_⟩
  · intro i hi hmeta
    rw [hn] at hi hmeta
    exact huniq i hi hmeta
  · intro e' he'
    obtain ⟨e, he, h1, h2⟩ := hm e' he'
    have := hedge e he
    rw [hn, h1, h2]
    exact this
  · intro i hi
    rw [hn] at hi ⊢
    rw [incoming_length_of_shape (hs i)]
    exact har i hi

theorem syncNext_wf {c : Circuit} (hwf : WellFormed c) : WellFormed (syncNext c) :=
  wf_of_shape_eq hwf rfl (syncNext_shape c) (by
    intro e' he'
    rw [syncNext] at he'
    obtain ⟨e, he, hfe⟩ := List.mem_map.mp he'
    refine ⟨e, he, ?_⟩
    rw [← hfe]
    constructor <;> (dsimp only; split <;> rfl))

theorem syncIter_wf {c : Circuit} (hwf : WellFormed c) (k : Nat) : WellFormed (syncIter c k) := by
  induction k with
  | zero => exact hwf
  | succ k ih => exact syncNext_wf ih

/-- Iterating the source's evaluator computes iterated synchronous passes. -/
theorem updateN_eq_syncIter {c : Circuit} (hwf : WellFormed c) (k : Nat) :
    updateN c (update_order c) k = some (syncIter c k) := by
  induction k with
  | zero => rfl
  | succ k ih =>
    rw [updateN, ih, Option.some_bind]
    have hord : update_order c = update_order (syncIter c k) := by
      rw [update_order, update_order, syncIter_nodes]
    rw [hord, update_once_eq_syncNext (syncIter_wf hwf k)]
    rfl

end Circuit

namespace Circuit

/-- Rank strictly increases along every wire of a sane circuit. -/
theorem rank_lt_of_edge {c : Circuit} (hS : Sane c) {e : Edge} (he : e ∈ c.edges) :
    rank c e.src < rank c e.tgt := by
  have htgt : e.tgt < c.nodes.length := (hS.2.2 e he).2.2
  rw [show rank c e.tgt = rankStep c (rankList c) e.tgt from
    rank_eq_step htgt (sane_incoming_src_lt hS)]
  rw [rankStep]
  have hmem : (rank c e.src + 1) ∈ (incoming c e.tgt).map fun f => (rankList c).getD f.src 0 + 1 :=
    List.mem_map_of_mem _ (mem_incoming he rfl)
  have := mem_le_foldl_max hmem 0
  omega

theorem rank_pos {c : Circuit} (hwf : WellFormed c) {n : Nat} (hn : n < c.nodes.length)
    (h0 : n ≠ 0) : 1 ≤ rank c n := by
  obtain ⟨g, hg⟩ : ∃ g, c.nodes[n]? = some g := ⟨c.nodes[n], List.getElem?_eq_getElem hn⟩
  have hgm : g ≠ Gate.MetaInput := by
    intro h
    exact h0 (hwf.1.2.1 n (List.mem_range.mpr hn) (by rw [hg, h]))
  have har : (incoming c n).length = fanIn g := by
    have := hwf.2 n (List.mem_range.mpr hn)
    rwa [List.getD_eq_getElem?_getD, hg] at this
  have hpos : 0 < (incoming c n).length := by
    rw [har]
    cases g <;> first | exact absurd rfl hgm | decide
  obtain ⟨e, he⟩ := List.exists_mem_of_length_pos hpos
  rw [show rank c n = rankStep c (rankList c) n from
    rank_eq_step hn (sane_incoming_src_lt hwf.1)]
  rw [rankStep]
  have hmem : ((rankList c).getD e.src 0 + 1) ∈
      (incoming c n).map fun f => (rankList c).getD f.src 0 + 1 :=
    List.mem_map_of_mem _ he
  have := mem_le_foldl_max hmem 0
  omega

theorem rank_le_maxRank {c : Circuit} {n : Nat} (hn : n < c.nodes.length) :
    rank c n ≤ maxRank c := by
  have hlen : n < (rankList c).length := by
    rw [rankList, dpList_length]
    exact hn
  have hmem : rank c n ∈ rankList c := by
    rw [rank, List.getD_eq_getElem?_getD, List.getElem?_eq_getElem hlen]
    exact List.getElem_mem hlen
  exact mem_le_foldl_max hmem 0

theorem forall2_filter_tgt {R : Edge → Edge → Prop} {es es' : List Edge}
    (hR : ∀ e e', R e e' → e'.tgt = e.tgt) (h : List.Forall₂ R es es') (n : Nat) :
    List.Forall₂ R (es.filter fun e => e.tgt == n) (es'.filter fun e => e.tgt == n) := by
  induction h with
  | nil => simp
  | @cons a b l₁ l₂ hab hl ih =>
    rw [List.filter_cons, List.filter_cons]
    have heq : (b.tgt == n) = (a.tgt == n) := by rw [hR a b hab]
    rw [heq]
    by_cases hc : (a.tgt == n) = true
    · rw [if_pos hc, if_pos hc]
      exact List.Forall₂.cons hab ih
    · rw [if_neg hc, if_neg hc]
      exact ih

theorem forall2_map_eq_mem {R : Edge → Edge → Prop} {es es' : List Edge} {α : Type}
    {g g' : Edge → α} (h : List.Forall₂ R es es')
    (hg : ∀ e ∈ es, ∀ e', R e e' → g' e' = g e) : es'.map g' = es.map g := by
  induction h with
  | nil => rfl
  | @cons a b l₁ l₂ hab hl ih =>
    rw [List.map_cons, List.map_cons, hg a (List.mem_cons_self a l₁) b hab]
    rw [ih fun e he e' hre => hg e (List.mem_cons_of_mem a he) e' hre]

theorem forall2_eq_map_mem {R : Edge → Edge → Prop} {es es' : List Edge} {f : Edge → Edge}
    (h : List.Forall₂ R es es') (hf : ∀ e ∈ es, ∀ e', R e e' → e' = f e) : es' = es.map f := by
  induction h with
  | nil => rfl
  | @cons a b l₁ l₂ hab hl ih =>
    rw [List.map_cons, hf a (List.mem_cons_self a l₁) b hab]
    rw [ih fun e he e' hre => hf e (List.mem_cons_of_mem a he) e' hre]

theorem forall2_map_right_mem {R S : Edge → Edge → Prop} {es es' : List Edge} {f : Edge → Edge}
    (h : List.Forall₂ R es es') (hf : ∀ e ∈ es, ∀ e', R e e' → S e (f e')) :
    List.Forall₂ S es (es'.map f) := by
  induction h with
  | nil => simp
  | @cons a b l₁ l₂ hab hl ih =>
    rw [List.map_cons]
    exact List.Forall₂.cons (hf a (List.mem_cons_self a l₁) b hab)
      (ih fun e he e' hre => hf e (List.mem_cons_of_mem a he) e' hre)

/-- Per-wire approximation invariant after `k` synchronous passes: shapes are
unchanged, wires out of `MetaInput` are untouched, and every wire whose source
has rank at most `k` already carries its settled value. -/
def EdgeApprox (c : Circuit) (k : Nat) (e e' : Edge) : Prop :=
  e'.src = e.src ∧ e'.tgt = e.tgt ∧ (e.src = 0 → e' = e) ∧
  (e.src ≠ 0 → rank c e.src ≤ k → e'.val = denote c e.src)

/-- If the wires of `X` approximate those of `c` to depth `k`, every
non-`MetaInput` node of rank at most `k + 1` already emits its settled value. -/
theorem emit_eq_denote {c X : Circuit} (hwf : WellFormed c) {k : Nat}
    (hXn : X.nodes = c.nodes) (hF2 : List.Forall₂ (EdgeApprox c k) c.edges X.edges)
    {u : Nat} (hu : u < c.nodes.length) (_hu0 : u ≠ 0) (hrk : rank c u ≤ k + 1) :
    emitVal X u = denote c u := by
  have hfil : List.Forall₂ (EdgeApprox c k) (incoming c u) (incoming X u) :=
    forall2_filter_tgt (fun e e' hr => hr.2.1) hF2 u
  have hmapval : (incoming X u).map (fun e => e.val)
      = (incoming c u).map fun e => if e.src = 0 then e.val else denote c e.src := by
    apply forall2_map_eq_mem hfil
    intro e he e' hr
    by_cases h0 : e.src = 0
    · rw [if_pos h0, hr.2.2.1 h0]
    · rw [if_neg h0]
      obtain ⟨hmem, htgt⟩ := incoming_mem he
      have hlt : rank c e.src < rank c u := htgt ▸ rank_lt_of_edge hwf.1 hmem
      exact hr.2.2.2 h0 (by omega)
  rw [emitVal, hXn, hmapval]
  rw [denote_eq_step hu (sane_incoming_src_lt hwf.1), denoteStep]
  rfl

/-- After `k` synchronous passes every wire whose source has rank at most `k`
holds its settled value (and `MetaInput` wires are untouched). -/
theorem syncIter_vals {c : Circuit} (hwf : WellFormed c) (k : Nat) :
    List.Forall₂ (EdgeApprox c k) c.edges (syncIter c k).edges := by
  induction k with
  | zero =>
    rw [syncIter]
    apply List.forall₂_same.mpr
    intro e he
    refine ⟨rfl, rfl, fun _ => rfl, fun h0 hr => ?_⟩
    have hsrc : e.src < c.nodes.length := by
      have := hwf.1.2.2 e he
      omega
    have := rank_pos hwf hsrc h0
    omega
  | succ k ih =>
    rw [syncIter, syncNext]
    apply forall2_map_right_mem ih
    intro e he e' hr
    by_cases h0 : e.src = 0
    · have he' : e' = e := hr.2.2.1 h0
      rw [he']
      rw [if_pos (he' ▸ hr.1 ▸ h0)]
      exact ⟨rfl, rfl, fun _ => rfl, fun hne _ => absurd h0 hne⟩
    · rw [if_neg (by rw [hr.1]; exact h0)]
      refine ⟨hr.1, hr.2.1, fun hz => absurd hz h0, fun _ hrk => ?_⟩
      have hsrc : e.src < c.nodes.length := by
        have := hwf.1.2.2 e he
        omega
      rw [hr.1]
      exact emit_eq_denote hwf (syncIter_nodes c k) ih hsrc h0 hrk

/-- After at least `maxRank` synchronous passes the circuit is settled. -/
theorem syncIter_eq_settle {c : Circuit} (hwf : WellFormed c) {k : Nat}
    (hk : maxRank c ≤ k) : syncIter c k = settle c := by
  refine circuit_ext (syncIter_nodes c k) ?_
  rw [settle]
  apply forall2_eq_map_mem (syncIter_vals hwf k)
  intro e he e' hr
  by_cases h0 : e.src = 0
  · rw [if_pos h0]
    exact hr.2.2.1 h0
  · rw [if_neg h0]
    have hsrc : e.src < c.nodes.length := by
      have := hwf.1.2.2 e he
      omega
    have hval : e'.val = denote c e.src :=
      hr.2.2.2 h0 (le_trans (rank_le_maxRank hsrc) hk)
    rcases e' with ⟨s, t, vl⟩
    obtain ⟨h1, h2, _, _⟩ := hr
    simp only at h1 h2
    simp only at hval
    rw [h1, h2, hval]

/-- The settled circuit is a fixed point of the synchronous pass. -/
theorem syncNext_settle {c : Circuit} (hwf : WellFormed c) :
    syncNext (settle c) = settle c := by
  have h1 := @syncIter_eq_settle c hwf (maxRank c) (le_refl _)
  have h2 := @syncIter_eq_settle c hwf (maxRank c + 1) (Nat.le_succ _)
  calc syncNext (settle c) = syncNext (syncIter c (maxRank c)) := by rw [h1]
    _ = syncIter c (maxRank c + 1) := rfl
    _ = settle c := h2

theorem settle_nodes (c : Circuit) : (settle c).nodes = c.nodes := rfl

theorem settle_shape (c : Circuit) (n : Nat) : shape (settle c) n = shape c n := by
  rw [settle]
  exact shape_map_val (fun e => by split <;> rfl) (fun e => by split <;> rfl) n

theorem settle_wf {c : Circuit} (hwf : WellFormed c) : WellFormed (settle c) :=
  wf_of_shape_eq hwf rfl (settle_shape c) (by
    intro e' he'
    rw [settle] at he'
    obtain ⟨e, he, hfe⟩ := List.mem_map.mp he'
    refine ⟨e, he, ?_⟩
    rw [← hfe]
    constructor <;> (split <;> rfl))

end Circuit

namespace Circuit

/-- The circuit of the repository's `test_simple_circuit`: two inputs feeding
an XOR feeding an output, first input set `true`. -/
def demoXor : Circuit :=
  let p1 := add_input Circuit.new
  let p2 := add_input p1.1
  let p3 := add_xor p2.1 p1.2 p2.2
  let p4 := add_output p3.1 p3.2
  set_input p4.1 p1.2 true

/-- An input feeding a NOT feeding an output, input set `true`: the smallest
circuit on which one evaluator pass does not settle. -/
def demoNot : Circuit :=
  let p1 := add_input Circuit.new
  let p2 := add_not p1.1 p1.2
  let p3 := add_output p2.1 p2.2
  set_input p3.1 p1.2 true

end Circuit

namespace Circuit

/-- C3: for every well-formed circuit (each gate has its required fan-in) with
a fixed input assignment, invoking `update_signals_once` with the ordering from
`update_order()` at least `maxRank + 1` times reaches a fixed point — the
settled circuit, in which every wire not leaving `MetaInput` carries the
settled output of its source — and every further invocation leaves every
wire's value unchanged (it keeps producing the same settled circuit). -/
theorem C3_settling {c : Circuit} (hwf : WellFormed c) :
    updateN c (update_order c) (maxRank c + 1) = some (settle c) ∧
    ∀ m, maxRank c + 1 ≤ m → updateN c (update_order c) m = some (settle c) := by
  have hm : ∀ m, maxRank c ≤ m → updateN c (update_order c) m = some (settle c) := by
    intro m hmk
    rw [updateN_eq_syncIter hwf m, syncIter_eq_settle hwf hmk]
  exact ⟨hm _ (Nat.le_succ _), fun m h => hm m (by omega)⟩

/-- C3 witness: the settling theorem applied to the concrete NOT-chain circuit. -/
theorem C3_settling_witness :
    updateN demoNot (update_order demoNot) (maxRank demoNot + 1) = some (settle demoNot) ∧
    ∀ m, maxRank demoNot + 1 ≤ m →
      updateN demoNot (update_order demoNot) m = some (settle demoNot) :=
  C3_settling (by decide)

/-- C2 counterexample: on the well-formed NOT-chain circuit one invocation of
`update_signals_once` with `update_order()`'s ordering does not reach the fixed
point — a second invocation still changes a wire. -/
theorem C2_counterexample :
    WellFormed demoNot ∧
    updateN demoNot (update_order demoNot) 1 ≠ updateN demoNot (update_order demoNot) 2 := by
  decide

/-- C2 amended: with the reversed topological order the source's
`update_order` produces, `maxRank` invocations of `update_signals_once` (not a
single one) reach the settled fixed point — every wire not leaving `MetaInput`
carries the settled output of its source — and a further invocation changes no
wire. -/
theorem C2_amended {c : Circuit} (hwf : WellFormed c) :
    updateN c (update_order c) (maxRank c) = some (settle c) ∧
    update_signals_once (settle c) (update_order c) = some (settle c) := by
  constructor
  · rw [updateN_eq_syncIter hwf, syncIter_eq_settle hwf (le_refl _)]
  · have h := update_once_eq_syncNext (settle_wf hwf)
    rw [show update_order (settle c) = update_order c from rfl] at h
    rw [h, syncNext_settle hwf]

/-- C2 witness: the amended theorem applied to the repository's XOR demo. -/
theorem C2_amended_witness :
    updateN demoXor (update_order demoXor) (maxRank demoXor) = some (settle demoXor) ∧
    update_signals_once (settle demoXor) (update_order demoXor) = some (settle demoXor) :=
  C2_amended (by decide)

end Circuit

namespace Circuit

/-- C1 counterexample: in the one-input circuit there is a wire from node `0`
(`MetaInput`) to node `1`, yet `update_order()` returns `[1, 0]` — the source
node `0` does not appear before its sink.  (For this two-node circuit `[0, 1]`
is the only topological order, so the reversal performed by the source is
forced to produce `[1, 0]`.) -/
theorem C1_counterexample :
    (⟨0, 1, false⟩ : Edge) ∈ (add_input Circuit.new).1.edges ∧
    update_order (add_input Circuit.new).1 = [1, 0] ∧
    ¬ ∃ i j : Nat, i < j ∧ (update_order (add_input Circuit.new).1)[i]? = some 0 ∧
      (update_order (add_input Circuit.new).1)[j]? = some 1 := by
  refine ⟨by decide, by decide, ?_⟩
  rintro ⟨i, j, hij, hi, hj⟩
  have hord : update_order (add_input Circuit.new).1 = [1, 0] := by decide
  rw [hord] at hi hj
  rcases i with _ | _ | i
  · simp at hi
  · rcases j with _ | _ | j
    · omega
    · omega
    · simp at hj
  · simp at hi

theorem update_order_length (c : Circuit) : (update_order c).length = c.nodes.length := by
  rw [update_order, List.length_reverse, List.length_range]

theorem update_order_getElem? {c : Circuit} {i : Nat} (hi : i < c.nodes.length) :
    (update_order c)[i]? = some (c.nodes.length - 1 - i) := by
  rw [update_order, List.getElem?_reverse (by simpa using hi), List.length_range,
    List.getElem?_range (by omega)]

/-- C1 amended: `update_order()` places sinks before sources.  For every
structurally sane circuit (every reachable circuit state, by
`reachable_sane`): every wire's target occurs in the returned ordering, its
source occurs later, and every occurrence of the target precedes every
occurrence of the source. -/
theorem C1_amended {c : Circuit} (hS : Sane c) :
    ∀ e ∈ c.edges,
      (∃ j i : Nat, j < i ∧ (update_order c)[j]? = some e.tgt ∧
        (update_order c)[i]? = some e.src) ∧
      ∀ i j : Nat, (update_order c)[i]? = some e.src → (update_order c)[j]? = some e.tgt →
        j < i := by
  intro e he
  obtain ⟨ht0, hst, htl⟩ := hS.2.2 e he
  constructor
  · refine ⟨c.nodes.length - 1 - e.tgt, c.nodes.length - 1 - e.src, by omega, ?_, ?_⟩
    · rw [update_order_getElem? (by omega)]
      congr 1
      omega
    · rw [update_order_getElem? (by omega)]
      congr 1
      omega
  · intro i j hi hj
    have hilen : i < c.nodes.length := by
      by_contra hge
      rw [update_order, List.getElem?_eq_none] at hi
      · exact Option.noConfusion hi
      · rw [List.length_reverse, List.length_range]
        omega
    have hjlen : j < c.nodes.length := by
      by_contra hge
      rw [update_order, List.getElem?_eq_none] at hj
      · exact Option.noConfusion hj
      · rw [List.length_reverse, List.length_range]
        omega
    rw [update_order_getElem? hilen] at hi
    rw [update_order_getElem? hjlen] at hj
    have h1 : c.nodes.length - 1 - i = e.src := Option.some.injEq _ _ ▸ hi
    have h2 : c.nodes.length - 1 - j = e.tgt := Option.some.injEq _ _ ▸ hj
    omega

/-- C1 witness: the amended sink-before-source property on the one-input circuit. -/
theorem C1_amended_witness :
    (⟨0, 1, false⟩ : Edge) ∈ (add_input Circuit.new).1.edges ∧
    ((∃ j i : Nat, j < i ∧ (update_order (add_input Circuit.new).1)[j]? = some 1 ∧
        (update_order (add_input Circuit.new).1)[i]? = some 0) ∧
      ∀ i j : Nat, (update_order (add_input Circuit.new).1)[i]? = some 0 →
        (update_order (add_input Circuit.new).1)[j]? = some 1 → j < i) :=
  ⟨by decide, C1_amended (by decide) ⟨0, 1, false⟩ (by decide)⟩

/-- The incoming wires of the freshly appended node are exactly the appended
wires. -/
theorem incoming_append_new {c : Circuit} {g : Gate} {tail : List Edge}
    (hT : ∀ e ∈ c.edges, e.tgt < c.nodes.length)
    (htail : ∀ e ∈ tail, e.tgt = c.nodes.length) :
    incoming ⟨c.nodes ++ [g], c.edges ++ tail⟩ c.nodes.length = tail := by
  have hof : incoming ⟨c.nodes ++ [g], c.edges⟩ c.nodes.length = [] := by
    rw [incoming, List.filter_eq_nil_iff]
    intro e he
    simp only [beq_iff_eq]
    exact Nat.ne_of_lt (hT e he)
  have htf : (tail.filter fun e => e.tgt == c.nodes.length) = tail :=
    List.filter_eq_self.mpr fun e he => by simp [htail e he]
  rw [incoming_mk_append, hof, htf, List.nil_append]

/-- C8 counterexample: with `a = b` (the same existing handle passed twice)
`add_and` produces a node with exactly one incoming wire, not two, because
petgraph's `update_edge` finds the wire added by the first call and merely
rewrites its value. -/
theorem C8_counterexample :
    (incoming (add_and (add_input Circuit.new).1 1 1).1
        (add_and (add_input Circuit.new).1 1 1).2).length ≠ 2 ∧
    incoming (add_and (add_input Circuit.new).1 1 1).1
        (add_and (add_input Circuit.new).1 1 1).2 = [⟨1, 2, false⟩] := by
  decide

/-- C8 amended: for all existing node handles `a ≠ b` (in a circuit whose
wires target existing nodes), each of `add_and`, `add_or`, `add_xor` appends
exactly one new node of the corresponding kind, gives it exactly two incoming
wires — one from `a` and one from `b`, both carrying `false` — and returns the
new node's handle; when `a = b` the node receives a single incoming wire. -/
theorem C8_amended {c : Circuit} {a b : Nat} (hT : ∀ e ∈ c.edges, e.tgt < c.nodes.length)
    (hab : a ≠ b) :
    ((add_and c a b).1.nodes = c.nodes ++ [Gate.And] ∧ (add_and c a b).2 = c.nodes.length ∧
      incoming (add_and c a b).1 (add_and c a b).2
        = [⟨a, c.nodes.length, false⟩, ⟨b, c.nodes.length, false⟩]) ∧
    ((add_or c a b).1.nodes = c.nodes ++ [Gate.Or] ∧ (add_or c a b).2 = c.nodes.length ∧
      incoming (add_or c a b).1 (add_or c a b).2
        = [⟨a, c.nodes.length, false⟩, ⟨b, c.nodes.length, false⟩]) ∧
    ((add_xor c a b).1.nodes = c.nodes ++ [Gate.Xor] ∧ (add_xor c a b).2 = c.nodes.length ∧
      incoming (add_xor c a b).1 (add_xor c a b).2
        = [⟨a, c.nodes.length, false⟩, ⟨b, c.nodes.length, false⟩]) ∧
    incoming (add_and c a a).1 (add_and c a a).2 = [⟨a, c.nodes.length, false⟩] := by
  have htail : ∀ e ∈ [(⟨a, c.nodes.length, false⟩ : Edge), ⟨b, c.nodes.length, false⟩],
      e.tgt = c.nodes.length := by
    intro e he
    rcases List.mem_cons.mp he with rfl | he'
    · rfl
    · simp at he'
      rw [he']
  have htail1 : ∀ e ∈ [(⟨a, c.nodes.length, false⟩ : Edge)], e.tgt = c.nodes.length := by
    intro e he
    simp at he
    rw [he]
  refine ⟨?_, ?_, ?_, ?_⟩
  · rw [add_and_eq hT hab]
    exact ⟨rfl, rfl, incoming_append_new hT htail⟩
  · rw [add_or_eq hT hab]
    exact ⟨rfl, rfl, incoming_append_new hT htail⟩
  · rw [add_xor_eq hT hab]
    exact ⟨rfl, rfl, incoming_append_new hT htail⟩
  · rw [add_and_eq_self hT]
    exact incoming_append_new hT htail1

/-- C8 witness: the amended two-wire description on a concrete two-input circuit. -/
theorem C8_amended_witness :
    ((add_and (add_input (add_input Circuit.new).1).1 1 2).1.nodes
        = (add_input (add_input Circuit.new).1).1.nodes ++ [Gate.And] ∧
      (add_and (add_input (add_input Circuit.new).1).1 1 2).2
        = (add_input (add_input Circuit.new).1).1.nodes.length ∧
      incoming (add_and (add_input (add_input Circuit.new).1).1 1 2).1
          (add_and (add_input (add_input Circuit.new).1).1 1 2).2
        = [⟨1, (add_input (add_input Circuit.new).1).1.nodes.length, false⟩,
           ⟨2, (add_input (add_input Circuit.new).1).1.nodes.length, false⟩]) ∧
    ((add_or (add_input (add_input Circuit.new).1).1 1 2).1.nodes
        = (add_input (add_input Circuit.new).1).1.nodes ++ [Gate.Or] ∧
      (add_or (add_input (add_input Circuit.new).1).1 1 2).2
        = (add_input (add_input Circuit.new).1).1.nodes.length ∧
      incoming (add_or (add_input (add_input Circuit.new).1).1 1 2).1
          (add_or (add_input (add_input Circuit.new).1).1 1 2).2
        = [⟨1, (add_input (add_input Circuit.new).1).1.nodes.length, false⟩,
           ⟨2, (add_input (add_input Circuit.new).1).1.nodes.length, false⟩]) ∧
    ((add_xor (add_input (add_input Circuit.new).1).1 1 2).1.nodes
        = (add_input (add_input Circuit.new).1).1.nodes ++ [Gate.Xor] ∧
      (add_xor (add_input (add_input Circuit.new).1).1 1 2).2
        = (add_input (add_input Circuit.new).1).1.nodes.length ∧
      incoming (add_xor (add_input (add_input Circuit.new).1).1 1 2).1
          (add_xor (add_input (add_input Circuit.new).1).1 1 2).2
        = [⟨1, (add_input (add_input Circuit.new).1).1.nodes.length, false⟩,
           ⟨2, (add_input (add_input Circuit.new).1).1.nodes.length, false⟩]) ∧
    incoming (add_and (add_input (add_input Circuit.new).1).1 1 1).1
        (add_and (add_input (add_input Circuit.new).1).1 1 1).2
      = [⟨1, (add_input (add_input Circuit.new).1).1.nodes.length, false⟩] :=
  C8_amended (by decide) (by decide)

/-- C10: for every circuit, `ripple_carry` on two empty input slices fails
fatally (the equal-length assertion passes, then `a[0]` is out of bounds). -/
theorem C10_empty_ripple (c : Circuit) : ripple_carry c [] [] = none := rfl

end Circuit

/-- C9 counterexample: `set_bit` with `x = false` leaves the value unchanged
instead of clearing the bit, so the round-trip fails at `v = 1`, `b = 0`,
`x = false`. -/
theorem C9_counterexample :
    set_bit 1 0 false = 1 ∧ ¬(get_bit (set_bit 1 0 false) 0 = false) := by decide

/-- The source's `get_bit` is `Nat.testBit`. -/
theorem get_bit_eq_testBit (v b : Nat) : get_bit v b = Nat.testBit v b := by
  simp [get_bit, Nat.testBit_to_div_mod, Nat.shiftRight_eq_div_pow, Nat.and_one_is_mod]
  rfl

/-- C9 amended: within the 64-bit `usize` domain the pair round-trips up to
the stored bit: reading back bit `b` of `set_bit v b x` yields
`x || get_bit v b` — equal to `x` whenever `x = true` or bit `b` of `v` was
clear, but `set_bit … false` does not clear an already-set bit. -/
theorem C9_amended (v b : Nat) (x : Bool) (_hv : v < 2 ^ 64) (_hb : b < 64) :
    get_bit (set_bit v b x) b = (x || get_bit v b) := by
  cases x with
  | false => rw [set_bit, if_neg (by simp), Bool.false_or]
  | true =>
    rw [set_bit, if_pos rfl, get_bit_eq_testBit, get_bit_eq_testBit, Bool.true_or]
    rw [Nat.shiftLeft_eq, one_mul, Nat.testBit_or, Nat.testBit_two_pow_self]
    simp

/-- C9 witness: the amended round-trip at `v = 5`, `b = 1`, `x = true`. -/
theorem C9_amended_witness : get_bit (set_bit 5 1 true) 1 = (true || get_bit 5 1) :=
  C9_amended 5 1 true (by decide) (by decide)

namespace Circuit

theorem add_xor_eq_self {c : Circuit} {a : Nat} (hT : ∀ e ∈ c.edges, e.tgt < c.nodes.length) :
    add_xor c a a = (⟨c.nodes ++ [Gate.Xor], c.edges ++ [⟨a, c.nodes.length, false⟩]⟩,
      c.nodes.length) := by
  unfold add_xor add_node
  exact congrArg (·, c.nodes.length) (add2_explicit_eq Gate.Xor hT)

theorem add_or_eq_self {c : Circuit} {a : Nat} (hT : ∀ e ∈ c.edges, e.tgt < c.nodes.length) :
    add_or c a a = (⟨c.nodes ++ [Gate.Or], c.edges ++ [⟨a, c.nodes.length, false⟩]⟩,
      c.nodes.length) := by
  unfold add_or add_node
  exact congrArg (·, c.nodes.length) (add2_explicit_eq Gate.Or hT)

/-- Edge shape relatedness: same source and target, value free. -/
def ShapeRel (e e' : Edge) : Prop := e'.src = e.src ∧ e'.tgt = e.tgt

theorem forall2_shape_trans {l m k : List Edge} (h1 : List.Forall₂ ShapeRel l m)
    (h2 : List.Forall₂ ShapeRel m k) : List.Forall₂ ShapeRel l k := by
  induction h1 generalizing k with
  | nil =>
    cases h2
    exact List.Forall₂.nil
  | @cons a b l₁ l₂ hab hl ih =>
    cases h2 with
    | cons hbc hk =>
      exact List.Forall₂.cons ⟨hbc.1.trans hab.1, hbc.2.trans hab.2⟩ (ih hk)

theorem forall2_mem_right {R : Edge → Edge → Prop} {l l' : List Edge}
    (h : List.Forall₂ R l l') : ∀ b ∈ l', ∃ a ∈ l, R a b := by
  induction h with
  | nil => intro b hb; simp at hb
  | @cons a b l₁ l₂ hab hl ih =>
    intro b' hb'
    rcases List.mem_cons.mp hb' with rfl | h'
    · exact ⟨a, List.mem_cons_self a l₁, hab⟩
    · obtain ⟨a', ha', hr⟩ := ih b' h'
      exact ⟨a', List.mem_cons_of_mem a ha', hr⟩

theorem writeOut_forall2 (c : Circuit) (n : Nat) (v : Bool) :
    List.Forall₂ ShapeRel c.edges (writeOut c n v).edges := by
  rw [writeOut]
  apply forall2_map_right_mem (List.forall₂_same.mpr fun (e : Edge) _ => rfl)
  intro e _ e' he'
  subst he'
  constructor <;> (split <;> rfl)

theorem setEdgeVal_forall2 (es : List Edge) (a b : Nat) (v : Bool) :
    List.Forall₂ ShapeRel es (setEdgeVal es a b v) := by
  induction es with
  | nil => exact List.Forall₂.nil
  | cons e es ih =>
    rw [setEdgeVal]
    by_cases hm : e.src = a ∧ e.tgt = b
    · rw [if_pos hm]
      exact List.Forall₂.cons ⟨rfl, rfl⟩ (List.forall₂_same.mpr fun _ _ => ⟨rfl, rfl⟩)
    · rw [if_neg hm]
      exact List.Forall₂.cons ⟨rfl, rfl⟩ ih

end Circuit

namespace Circuit

/-- The invariant maintained by every public operation: structural sanity plus
the fact that every node other than `MetaInput` has at least one incoming wire
(every construction operation wires its node immediately). -/
def Sane2 (c : Circuit) : Prop :=
  Sane c ∧ ∀ i ∈ List.range c.nodes.length, i ≠ 0 → incoming c i ≠ []

instance (c : Circuit) : Decidable (Sane2 c) := by unfold Sane2; infer_instance

theorem sane2_append {c : Circuit} {g : Gate} {tail : List Edge}
    (h2 : Sane2 c) (hgm : g ≠ Gate.MetaInput)
    (htail : ∀ e ∈ tail, e.tgt = c.nodes.length ∧ e.src < c.nodes.length)
    (hne : tail ≠ []) : Sane2 ⟨c.nodes ++ [g], c.edges ++ tail⟩ := by
  refine ⟨sane_append h2.1 hgm htail, ?_⟩
  intro i hi h0
  simp only [List.length_append, List.length_cons, List.length_nil, List.mem_range] at hi
  rw [incoming_mk_append]
  rcases Nat.lt_or_ge i c.nodes.length with h' | h'
  · intro hcon
    rcases List.append_eq_nil.mp hcon with ⟨hc1, _⟩
    exact h2.2 i (List.mem_range.mpr h') h0 hc1
  · have hieq : i = c.nodes.length := by omega
    subst hieq
    have hof : incoming ⟨c.nodes ++ [g], c.edges⟩ c.nodes.length = [] := by
      rw [incoming, List.filter_eq_nil_iff]
      intro e he
      simp only [beq_iff_eq]
      exact Nat.ne_of_lt (h2.1.tgts_lt e he)
    have htf : (tail.filter fun e => e.tgt == c.nodes.length) = tail :=
      List.filter_eq_self.mpr fun e he => by simp [(htail e he).1]
    rw [hof, htf, List.nil_append]
    exact hne

theorem sane2_add_input {c : Circuit} (h2 : Sane2 c) :
    Sane2 (add_input c).1 ∧ (add_input c).1.nodes.length = c.nodes.length + 1 := by
  rw [add_input_eq h2.1.tgts_lt]
  refine ⟨sane2_append h2 (by simp) ?_ (by simp), by simp⟩
  intro e he
  simp at he
  rw [he]
  exact ⟨rfl, h2.1.len_pos⟩

theorem sane2_add1 {c : Circuit} {a : Nat} {g : Gate} (h2 : Sane2 c)
    (hgm : g ≠ Gate.MetaInput) (ha : a < c.nodes.length) :
    Sane2 ⟨c.nodes ++ [g], c.edges ++ [⟨a, c.nodes.length, false⟩]⟩ := by
  refine sane2_append h2 hgm ?_ (by simp)
  intro e he
  simp at he
  rw [he]
  exact ⟨rfl, ha⟩

theorem sane2_add2 {c : Circuit} {a b : Nat} {g : Gate} (h2 : Sane2 c)
    (hgm : g ≠ Gate.MetaInput) (ha : a < c.nodes.length) (hb : b < c.nodes.length) :
    Sane2 ⟨c.nodes ++ [g],
      c.edges ++ [⟨a, c.nodes.length, false⟩, ⟨b, c.nodes.length, false⟩]⟩ := by
  refine sane2_append h2 hgm ?_ (by simp)
  intro e he
  rcases List.mem_cons.mp he with rfl | he'
  · exact ⟨rfl, ha⟩
  · simp at he'
    rw [he']
    exact ⟨rfl, hb⟩

theorem sane2_add_not {c : Circuit} {a : Nat} (h2 : Sane2 c) (ha : a < c.nodes.length) :
    Sane2 (add_not c a).1 ∧ (add_not c a).1.nodes.length = c.nodes.length + 1 := by
  rw [add_not_eq h2.1.tgts_lt]
  exact ⟨sane2_add1 h2 (by simp) ha, by simp⟩

theorem sane2_add_output {c : Circuit} {a : Nat} (h2 : Sane2 c) (ha : a < c.nodes.length) :
    Sane2 (add_output c a).1 ∧ (add_output c a).1.nodes.length = c.nodes.length + 1 := by
  rw [add_output_eq h2.1.tgts_lt]
  exact ⟨sane2_add1 h2 (by simp) ha, by simp⟩

theorem sane2_add_xor {c : Circuit} {a b : Nat} (h2 : Sane2 c)
    (ha : a < c.nodes.length) (hb : b < c.nodes.length) :
    Sane2 (add_xor c a b).1 ∧ (add_xor c a b).1.nodes.length = c.nodes.length + 1 := by
  by_cases hab : a = b
  · subst hab
    rw [add_xor_eq_self h2.1.tgts_lt]
    exact ⟨sane2_add1 h2 (by simp) ha, by simp⟩
  · rw [add_xor_eq h2.1.tgts_lt hab]
    exact ⟨sane2_add2 h2 (by simp) ha hb, by simp⟩

theorem sane2_add_or {c : Circuit} {a b : Nat} (h2 : Sane2 c)
    (ha : a < c.nodes.length) (hb : b < c.nodes.length) :
    Sane2 (add_or c a b).1 ∧ (add_or c a b).1.nodes.length = c.nodes.length + 1 := by
  by_cases hab : a = b
  · subst hab
    rw [add_or_eq_self h2.1.tgts_lt]
    exact ⟨sane2_add1 h2 (by simp) ha, by simp⟩
  · rw [add_or_eq h2.1.tgts_lt hab]
    exact ⟨sane2_add2 h2 (by simp) ha hb, by simp⟩

theorem sane2_add_and {c : Circuit} {a b : Nat} (h2 : Sane2 c)
    (ha : a < c.nodes.length) (hb : b < c.nodes.length) :
    Sane2 (add_and c a b).1 ∧ (add_and c a b).1.nodes.length = c.nodes.length + 1 := by
  by_cases hab : a = b
  · subst hab
    rw [add_and_eq_self h2.1.tgts_lt]
    exact ⟨sane2_add1 h2 (by simp) ha, by simp⟩
  · rw [add_and_eq h2.1.tgts_lt hab]
    exact ⟨sane2_add2 h2 (by simp) ha hb, by simp⟩

/-- Circuits related by nodes-equality and shapewise-related edges share the
`Sane2` invariant. -/
theorem sane2_of_shape {c d : Circuit} (h2 : Sane2 c) (hn : d.nodes = c.nodes)
    (hf : List.Forall₂ ShapeRel c.edges d.edges) : Sane2 d := by
  constructor
  · refine ⟨by rw [hn]; exact h2.1.1, ?_, ?_⟩
    · intro i hi hmeta
      rw [hn] at hi hmeta
      exact h2.1.2.1 i hi hmeta
    · intro e' he'
      obtain ⟨e, he, hr⟩ := forall2_mem_right hf e' he'
      have := h2.1.2.2 e he
      rw [hn, hr.1, hr.2]
      exact this
  · intro i hi h0
    rw [hn] at hi
    have hfi : List.Forall₂ ShapeRel (incoming c i) (incoming d i) :=
      forall2_filter_tgt (fun _ _ hr => hr.2) hf i
    intro hcon
    rw [hcon] at hfi
    have hlen0 := List.Forall₂.length_eq hfi
    simp only [List.length_nil] at hlen0
    exact h2.2 i hi h0 (List.length_eq_zero.mp hlen0)

theorem sane2_update_edge {c : Circuit} {a b : Nat} {v : Bool} (h2 : Sane2 c)
    (hab : a < b) (hb : b < c.nodes.length) : Sane2 (update_edge c a b v) := by
  rw [update_edge]
  split
  · exact sane2_of_shape h2 rfl (setEdgeVal_forall2 c.edges a b v)
  · constructor
    · refine ⟨h2.1.1, h2.1.2.1, ?_⟩
      intro e he
      rcases List.mem_append.mp he with he' | he'
      · exact h2.1.2.2 e he'
      · simp at he'
        rw [he']
        exact ⟨show 0 < b by omega, show a < b from hab, show b < c.nodes.length from hb⟩
    · intro i hi h0
      rw [incoming_mk_append]
      intro hcon
      rcases List.append_eq_nil.mp hcon with ⟨hc1, _⟩
      exact h2.2 i hi h0 hc1

theorem sane2_set_input {c : Circuit} {i : Nat} {v : Bool} (h2 : Sane2 c)
    (hk : c.nodes[i]? = some Gate.Input) : Sane2 (set_input c i v) := by
  have hlen : i < c.nodes.length := by
    by_contra hge
    rw [List.getElem?_eq_none (Nat.le_of_not_lt hge)] at hk
    exact Option.noConfusion hk
  have h0 : i ≠ 0 := by
    intro h
    rw [h, h2.1.1] at hk
    exact Gate.noConfusion (Option.some.injEq _ _ ▸ hk)
  rw [set_input]
  exact sane2_update_edge h2 (show metaInput < i by rw [metaInput]; omega) hlen

/-- `update_signals_once` never changes the node list or any wire's endpoints:
it only rewrites wire values. -/
theorem uso_shape : ∀ (ord : List Nat) (c c' : Circuit),
    update_signals_once c ord = some c' →
    c'.nodes = c.nodes ∧ List.Forall₂ ShapeRel c.edges c'.edges := by
  intro ord
  induction ord with
  | nil =>
    intro c c' h
    rw [uso_nil, Option.some.injEq] at h
    subst h
    exact ⟨rfl, List.forall₂_same.mpr fun _ _ => ⟨rfl, rfl⟩⟩
  | cons u rest ih =>
    intro c c' h
    rw [update_signals_once] at h
    cases hk : c.nodes[u]? with
    | none =>
      rw [hk] at h
      exact Option.noConfusion h
    | some g =>
      rw [hk] at h
      cases g
      case MetaInput => exact ih c c' h
      all_goals {
        cases hv : gateOut c u with
        | none =>
          rw [hv] at h
          exact Option.noConfusion h
        | some v =>
          rw [hv] at h
          obtain ⟨hn, hf⟩ := ih _ _ h
          exact ⟨by rw [hn]; rfl, forall2_shape_trans (writeOut_forall2 c u v) hf⟩ }

end Circuit

namespace Circuit

theorem sane2_add_xor_eq {c c' : Circuit} {a b r : Nat} (h2 : Sane2 c)
    (ha : a < c.nodes.length) (hb : b < c.nodes.length) (heq : add_xor c a b = (c', r)) :
    Sane2 c' ∧ c'.nodes.length = c.nodes.length + 1 ∧ r = c.nodes.length := by
  have h := sane2_add_xor h2 ha hb
  rw [heq] at h
  have hr := congrArg Prod.snd heq
  exact ⟨h.1, h.2, hr.symm⟩

theorem sane2_add_and_eq {c c' : Circuit} {a b r : Nat} (h2 : Sane2 c)
    (ha : a < c.nodes.length) (hb : b < c.nodes.length) (heq : add_and c a b = (c', r)) :
    Sane2 c' ∧ c'.nodes.length = c.nodes.length + 1 ∧ r = c.nodes.length := by
  have h := sane2_add_and h2 ha hb
  rw [heq] at h
  have hr := congrArg Prod.snd heq
  exact ⟨h.1, h.2, hr.symm⟩

theorem sane2_add_or_eq {c c' : Circuit} {a b r : Nat} (h2 : Sane2 c)
    (ha : a < c.nodes.length) (hb : b < c.nodes.length) (heq : add_or c a b = (c', r)) :
    Sane2 c' ∧ c'.nodes.length = c.nodes.length + 1 ∧ r = c.nodes.length := by
  have h := sane2_add_or h2 ha hb
  rw [heq] at h
  have hr := congrArg Prod.snd heq
  exact ⟨h.1, h.2, hr.symm⟩

theorem sane2_half_adder {c c' : Circuit} {a b s co : Nat} (h2 : Sane2 c)
    (ha : a < c.nodes.length) (hb : b < c.nodes.length)
    (heq : half_adder c a b = (c', s, co)) :
    Sane2 c' ∧ c'.nodes.length = c.nodes.length + 2 ∧
    s < c'.nodes.length ∧ co < c'.nodes.length := by
  obtain ⟨⟨c1, x1⟩, h1⟩ : ∃ p, add_xor c a b = p := ⟨_, rfl⟩
  obtain ⟨hs1, hl1, hx1⟩ := sane2_add_xor_eq h2 ha hb h1
  obtain ⟨⟨c2, x2⟩, hq2⟩ : ∃ p, add_and c1 a b = p := ⟨_, rfl⟩
  obtain ⟨hs2, hl2, hx2⟩ := sane2_add_and_eq hs1 (by omega) (by omega) hq2
  have hred : half_adder c a b = (c2, x1, x2) := by
    dsimp only [half_adder]
    rw [h1]
    dsimp only
    rw [hq2]
  rw [hred] at heq
  obtain ⟨hc, hs, hco⟩ : c' = c2 ∧ s = x1 ∧ co = x2 := by
    have h1' := congrArg Prod.fst heq
    have h2' := congrArg (fun p => p.2.1) heq
    have h3' := congrArg (fun p => p.2.2) heq
    exact ⟨h1'.symm, h2'.symm, h3'.symm⟩
  subst hc hs hco
  refine ⟨hs2, by omega, by omega, by omega⟩

theorem sane2_full_adder {c c' : Circuit} {a b cin s co : Nat} (h2 : Sane2 c)
    (ha : a < c.nodes.length) (hb : b < c.nodes.length) (hcin : cin < c.nodes.length)
    (heq : full_adder c a b cin = (c', s, co)) :
    Sane2 c' ∧ c'.nodes.length = c.nodes.length + 5 ∧
    s < c'.nodes.length ∧ co < c'.nodes.length := by
  obtain ⟨⟨c1, x1⟩, h1⟩ : ∃ p, add_xor c a b = p := ⟨_, rfl⟩
  obtain ⟨hs1, hl1, hx1⟩ := sane2_add_xor_eq h2 ha hb h1
  obtain ⟨⟨c2, x2⟩, hq2⟩ : ∃ p, add_xor c1 x1 cin = p := ⟨_, rfl⟩
  obtain ⟨hs2, hl2, hx2⟩ := sane2_add_xor_eq hs1 (by omega) (by omega) hq2
  obtain ⟨⟨c3, x3⟩, hq3⟩ : ∃ p, add_and c2 a b = p := ⟨_, rfl⟩
  obtain ⟨hs3, hl3, hx3⟩ := sane2_add_and_eq hs2 (by omega) (by omega) hq3
  obtain ⟨⟨c4, x4⟩, hq4⟩ : ∃ p, add_and c3 cin x1 = p := ⟨_, rfl⟩
  obtain ⟨hs4, hl4, hx4⟩ := sane2_add_and_eq hs3 (by omega) (by omega) hq4
  obtain ⟨⟨c5, x5⟩, hq5⟩ : ∃ p, add_or c4 x3 x4 = p := ⟨_, rfl⟩
  obtain ⟨hs5, hl5, hx5⟩ := sane2_add_or_eq hs4 (by omega) (by omega) hq5
  have hred : full_adder c a b cin = (c5, x2, x5) := by
    dsimp only [full_adder]
    rw [h1]
    dsimp only
    rw [hq2]
    dsimp only
    rw [hq3]
    dsimp only
    rw [hq4]
    dsimp only
    rw [hq5]
  rw [hred] at heq
  obtain ⟨hc, hs, hco⟩ : c' = c5 ∧ s = x2 ∧ co = x5 := by
    have h1' := congrArg Prod.fst heq
    have h2' := congrArg (fun p => p.2.1) heq
    have h3' := congrArg (fun p => p.2.2) heq
    exact ⟨h1'.symm, h2'.symm, h3'.symm⟩
  subst hc hs hco
  refine ⟨hs5, by omega, by omega, by omega⟩

end Circuit

namespace Circuit

theorem sane2_rippleLoop : ∀ (pairs : List (Nat × Nat)) (c : Circuit) (carry : Nat)
    (c' : Circuit) (ss : List Nat) (cf : Nat), Sane2 c →
    carry < c.nodes.length →
    (∀ p ∈ pairs, p.1 < c.nodes.length ∧ p.2 < c.nodes.length) →
    rippleLoop c carry pairs = (c', ss, cf) →
    Sane2 c' ∧ c.nodes.length ≤ c'.nodes.length ∧ cf < c'.nodes.length := by
  intro pairs
  induction pairs with
  | nil =>
    intro c carry c' ss cf h2 hcarry _ heq
    rw [rippleLoop] at heq
    obtain ⟨hc, -, hcf⟩ : c = c' ∧ [] = ss ∧ carry = cf := by
      have h1' := congrArg Prod.fst heq
      have h2' := congrArg (fun p => p.2.1) heq
      have h3' := congrArg (fun p => p.2.2) heq
      exact ⟨h1', h2', h3'⟩
    subst hc hcf
    exact ⟨h2, le_refl _, hcarry⟩
  | cons p rest ih =>
    intro c carry c' ss cf h2 hcarry hbnd heq
    obtain ⟨⟨c1, s1, co1⟩, hq⟩ : ∃ t, full_adder c p.1 p.2 carry = t := ⟨_, rfl⟩
    obtain ⟨hs1, hl1, _, hco1⟩ := sane2_full_adder h2
      (hbnd p (List.mem_cons_self p rest)).1 (hbnd p (List.mem_cons_self p rest)).2 hcarry hq
    obtain ⟨⟨c2, ss2, cf2⟩, hr⟩ : ∃ t, rippleLoop c1 co1 rest = t := ⟨_, rfl⟩
    obtain ⟨hs2, hle2, hcf2⟩ := ih c1 co1 c2 ss2 cf2 hs1 hco1
      (fun q hq' => ⟨by have := (hbnd q (List.mem_cons_of_mem p hq')).1; omega,
        by have := (hbnd q (List.mem_cons_of_mem p hq')).2; omega⟩) hr
    have hred : rippleLoop c carry (p :: rest) = (c2, s1 :: ss2, cf2) := by
      rw [rippleLoop, hq]
      dsimp only
      rw [hr]
    rw [hred] at heq
    obtain ⟨hc, -, hcf⟩ : c2 = c' ∧ s1 :: ss2 = ss ∧ cf2 = cf := by
      have h1' := congrArg Prod.fst heq
      have h2' := congrArg (fun p => p.2.1) heq
      have h3' := congrArg (fun p => p.2.2) heq
      exact ⟨h1', h2', h3'⟩
    subst hc hcf
    exact ⟨hs2, by omega, hcf2⟩

theorem ripple_carry_cons {c : Circuit} {a0 b0 : Nat} {arest brest : List Nat}
    (hlen : arest.length = brest.length) :
    ripple_carry c (a0 :: arest) (b0 :: brest) =
      some ((rippleLoop (half_adder c a0 b0).1 (half_adder c a0 b0).2.2 (arest.zip brest)).1,
        (half_adder c a0 b0).2.1
          :: (rippleLoop (half_adder c a0 b0).1 (half_adder c a0 b0).2.2 (arest.zip brest)).2.1,
        (rippleLoop (half_adder c a0 b0).1 (half_adder c a0 b0).2.2 (arest.zip brest)).2.2) := by
  rw [ripple_carry, if_pos (by simp [hlen])]

theorem sane2_ripple_carry {c c' : Circuit} {as bs ss : List Nat} {cf : Nat}
    (h2 : Sane2 c) (has : ∀ x ∈ as, x < c.nodes.length)
    (hbs : ∀ x ∈ bs, x < c.nodes.length)
    (heq : ripple_carry c as bs = some (c', ss, cf)) : Sane2 c' := by
  cases as with
  | nil =>
    cases bs with
    | nil => exact Option.noConfusion heq
    | cons b0 brest =>
      rw [ripple_carry.eq_def] at heq
      rw [if_neg (by simp)] at heq
      exact Option.noConfusion heq
  | cons a0 arest =>
    cases bs with
    | nil =>
      rw [ripple_carry.eq_def] at heq
      rw [if_neg (by simp)] at heq
      exact Option.noConfusion heq
    | cons b0 brest =>
      by_cases hlen : arest.length = brest.length
      · rw [ripple_carry_cons hlen] at heq
        obtain ⟨⟨c1, s1, co1⟩, hq⟩ : ∃ t, half_adder c a0 b0 = t := ⟨_, rfl⟩
        obtain ⟨hs1, hl1, _, hco1⟩ := sane2_half_adder h2
          (has a0 (List.mem_cons_self a0 arest)) (hbs b0 (List.mem_cons_self b0 brest)) hq
        obtain ⟨⟨c2, ss2, cf2⟩, hr⟩ : ∃ t, rippleLoop c1 co1 (arest.zip brest) = t := ⟨_, rfl⟩
        obtain ⟨hs2, _, _⟩ := sane2_rippleLoop (arest.zip brest) c1 co1 c2 ss2 cf2 hs1 hco1
          (fun q hq' => by
            obtain ⟨hqa, hqb⟩ := List.of_mem_zip hq'
            exact ⟨by have := has q.1 (List.mem_cons_of_mem a0 hqa); omega,
              by have := hbs q.2 (List.mem_cons_of_mem b0 hqb); omega⟩) hr
        rw [hq] at heq
        simp only at heq
        rw [hr] at heq
        have hsome := Option.some.inj heq
        have hc : c2 = c' := congrArg (fun p : Circuit × List Nat × Nat => p.1) hsome
        rw [← hc]
        exact hs2
      · rw [ripple_carry.eq_def] at heq
        rw [if_neg (by simp [hlen])] at heq
        exact Option.noConfusion heq

/-- The circuit states reachable from `Circuit::new()` by the public API:
construction operations called on existing handles, the composite builders,
`set_input` on `Input` nodes, and evaluator passes that complete without
panicking. -/
inductive Reachable : Circuit → Prop where
  | new : Reachable Circuit.new
  | add_input {c : Circuit} : Reachable c → Reachable (add_input c).1
  | add_or {c : Circuit} {a b : Nat} : Reachable c → a < c.nodes.length →
      b < c.nodes.length → Reachable (add_or c a b).1
  | add_xor {c : Circuit} {a b : Nat} : Reachable c → a < c.nodes.length →
      b < c.nodes.length → Reachable (add_xor c a b).1
  | add_and {c : Circuit} {a b : Nat} : Reachable c → a < c.nodes.length →
      b < c.nodes.length → Reachable (add_and c a b).1
  | add_not {c : Circuit} {a : Nat} : Reachable c → a < c.nodes.length →
      Reachable (add_not c a).1
  | add_output {c : Circuit} {a : Nat} : Reachable c → a < c.nodes.length →
      Reachable (add_output c a).1
  | half_adder {c c' : Circuit} {a b s co : Nat} : Reachable c → a < c.nodes.length →
      b < c.nodes.length → half_adder c a b = (c', s, co) → Reachable c'
  | full_adder {c c' : Circuit} {a b cin s co : Nat} : Reachable c → a < c.nodes.length →
      b < c.nodes.length → cin < c.nodes.length →
      full_adder c a b cin = (c', s, co) → Reachable c'
  | ripple_carry {c c' : Circuit} {as bs ss : List Nat} {cf : Nat} : Reachable c →
      (∀ x ∈ as, x < c.nodes.length) → (∀ x ∈ bs, x < c.nodes.length) →
      ripple_carry c as bs = some (c', ss, cf) → Reachable c'
  | set_input {c : Circuit} {i : Nat} {v : Bool} : Reachable c →
      c.nodes[i]? = some Gate.Input → Reachable (set_input c i v)
  | update {c c' : Circuit} {ord : List Nat} : Reachable c →
      update_signals_once c ord = some c' → Reachable c'

/-- Every reachable circuit state is structurally sane and every node other
than `MetaInput` has at least one incoming wire. -/
theorem reachable_sane {c : Circuit} (h : Reachable c) : Sane2 c := by
  induction h with
  | new => decide
  | add_input _ ih => exact (sane2_add_input ih).1
  | add_or _ ha hb ih => exact (sane2_add_or ih ha hb).1
  | add_xor _ ha hb ih => exact (sane2_add_xor ih ha hb).1
  | add_and _ ha hb ih => exact (sane2_add_and ih ha hb).1
  | add_not _ ha ih => exact (sane2_add_not ih ha).1
  | add_output _ ha ih => exact (sane2_add_output ih ha).1
  | half_adder _ ha hb heq ih => exact (sane2_half_adder ih ha hb heq).1
  | full_adder _ ha hb hcin heq ih => exact (sane2_full_adder ih ha hb hcin heq).1
  | ripple_carry _ has hbs heq ih => exact sane2_ripple_carry ih has hbs heq
  | set_input _ hk ih => exact sane2_set_input ih hk
  | update _ heq ih =>
    obtain ⟨hn, hf⟩ := uso_shape _ _ _ heq
    exact sane2_of_shape ih hn hf

theorem count_meta_one {c : Circuit} (hS : Sane c) :
    c.nodes.count Gate.MetaInput = 1 := by
  cases hnodes : c.nodes with
  | nil =>
    have := hS.1
    rw [hnodes] at this
    exact Option.noConfusion this
  | cons g t =>
    have hg : g = Gate.MetaInput := by
      have := hS.1
      rw [hnodes] at this
      simpa using this
    subst hg
    rw [List.count_cons_self]
    have ht : t.count Gate.MetaInput = 0 := by
      rw [List.count_eq_zero]
      intro hmem
      obtain ⟨i, hi, hti⟩ := List.mem_iff_getElem.mp hmem
      have hidx : c.nodes[i + 1]? = some Gate.MetaInput := by
        rw [hnodes, List.getElem?_cons_succ, List.getElem?_eq_getElem hi, hti]
      have hrange : i + 1 ∈ List.range c.nodes.length := by
        rw [List.mem_range, hnodes, List.length_cons]
        omega
      have := hS.2.1 (i + 1) hrange hidx
      omega
    rw [ht]

end Circuit

namespace Circuit

/-- C7: in every circuit state reachable from `new()` by any sequence of
public operations, exactly one node has kind `MetaInput` — the node the
constructor created at the fixed index `0` — and that node has zero incoming
wires. -/
theorem C7_single_source {c : Circuit} (h : Reachable c) :
    c.nodes[0]? = some Gate.MetaInput ∧
    c.nodes.count Gate.MetaInput = 1 ∧
    incoming c 0 = [] := by
  have h2 := reachable_sane h
  exact ⟨h2.1.1, count_meta_one h2.1,
    incoming_zero_eq_nil fun e he => (h2.1.2.2 e he).1⟩

/-- C7 witness: the single-source invariant on the concrete XOR demo circuit,
reached by the constructor, two `add_input`, `add_xor`, `add_output` and
`set_input`. -/
theorem C7_single_source_witness :
    demoXor.nodes[0]? = some Gate.MetaInput ∧
    demoXor.nodes.count Gate.MetaInput = 1 ∧
    incoming demoXor 0 = [] :=
  C7_single_source (Reachable.set_input
    (Reachable.add_output (Reachable.add_xor
      (Reachable.add_input (Reachable.add_input Reachable.new))
      (by decide) (by decide)) (by decide)) (by decide))

end Circuit

namespace Circuit

/-- `PathTo c n k`: there is a directed path of length `k` (number of wires)
from `MetaInput` (node `0`) to node `n`. -/
inductive PathTo (c : Circuit) : Nat → Nat → Prop where
  | zero : PathTo c 0 0
  | step {u k n : Nat} : PathTo c u k → (∃ e ∈ c.edges, e.src = u ∧ e.tgt = n) →
      PathTo c n (k + 1)

theorem pathTo_le_rank {c : Circuit} (hS : Sane c) {n k : Nat} (hp : PathTo c n k) :
    k ≤ rank c n := by
  induction hp with
  | zero => omega
  | @step u k' n' hp hedge ih =>
    obtain ⟨e, he, hsrc, htgt⟩ := hedge
    have hlt := rank_lt_of_edge hS he
    rw [hsrc, htgt] at hlt
    omega

theorem rank_zero {c : Circuit} (hS : Sane c) : rank c 0 = 0 := by
  rw [rank_eq_step hS.len_pos (sane_incoming_src_lt hS), rankStep,
    incoming_zero_eq_nil fun e he => (hS.2.2 e he).1]
  rfl

theorem rank_pathTo {c : Circuit} (h2 : Sane2 c) :
    ∀ n, n < c.nodes.length → PathTo c n (rank c n) := by
  intro n
  induction n using Nat.strong_induction_on with
  | _ n ih =>
    intro hn
    by_cases h0 : n = 0
    · subst h0
      rw [rank_zero h2.1]
      exact PathTo.zero
    · have hne : incoming c n ≠ [] := h2.2 n (List.mem_range.mpr hn) h0
      have hstep : rank c n
          = ((incoming c n).map fun e => (rankList c).getD e.src 0 + 1).foldl max 0 := by
        rw [rank_eq_step hn (sane_incoming_src_lt h2.1), rankStep]
      rcases foldl_max_mem ((incoming c n).map fun e => (rankList c).getD e.src 0 + 1) 0
        with hmem | h0'
      · rw [← hstep] at hmem
        obtain ⟨e, he, hre⟩ := List.mem_map.mp hmem
        obtain ⟨hemem, htgt⟩ := incoming_mem he
        have hsrclt : e.src < n := htgt ▸ (h2.1.2.2 e hemem).2.1
        have hsrclen : e.src < c.nodes.length := by omega
        have hp := ih e.src hsrclt hsrclen
        have hrank : rank c n = rank c e.src + 1 := by rw [← hre]; rfl
        rw [hrank]
        exact PathTo.step hp ⟨e, hemem, rfl, htgt⟩
      · obtain ⟨e, he⟩ := List.exists_mem_of_ne_nil _ hne
        have hmem1 : ((rankList c).getD e.src 0 + 1)
            ∈ (incoming c n).map fun e => (rankList c).getD e.src 0 + 1 :=
          List.mem_map_of_mem _ he
        have := mem_le_foldl_max hmem1 0
        rw [h0'] at this
        omega

/-- C6: for every circuit built through the public construction API, `ranks()`
assigns each node the length of the longest directed path from `MetaInput` to
it (a path of that length exists and no longer one does), and consequently the
rank strictly increases along every wire. -/
theorem C6_ranks_longest_path {c : Circuit} (h : Reachable c) :
    (∀ e ∈ c.edges, rank c e.src < rank c e.tgt) ∧
    ∀ n, n < c.nodes.length →
      PathTo c n (rank c n) ∧ ∀ k, PathTo c n k → k ≤ rank c n := by
  have h2 := reachable_sane h
  exact ⟨fun e he => rank_lt_of_edge h2.1 he,
    fun n hn => ⟨rank_pathTo h2 n hn, fun k hp => pathTo_le_rank h2.1 hp⟩⟩

/-- C6 witness: the longest-path characterization on the concrete NOT-chain
circuit. -/
theorem C6_ranks_longest_path_witness :
    (∀ e ∈ demoNot.edges, rank demoNot e.src < rank demoNot e.tgt) ∧
    ∀ n, n < demoNot.nodes.length →
      PathTo demoNot n (rank demoNot n) ∧ ∀ k, PathTo demoNot n k → k ≤ rank demoNot n :=
  C6_ranks_longest_path (Reachable.set_input
    (Reachable.add_output (Reachable.add_not
      (Reachable.add_input Reachable.new) (by decide)) (by decide)) (by decide))

end Circuit

namespace Circuit

/-- The circuit of `test_full_adder`: three inputs wired into `full_adder`,
with its sum and carry observed through `Output` gates.  The tuple holds the
circuit and the handles `(a, b, c_in, out_sum, out_carry)` = `(1, 2, 3, 9, 10)`. -/
def demoFullAdder : Circuit × Nat × Nat × Nat × Nat × Nat :=
  let p1 := add_input Circuit.new
  let p2 := add_input p1.1
  let p3 := add_input p2.1
  let q := full_adder p3.1 p1.2 p2.2 p3.2
  let ps := add_output q.1 q.2.1
  let pc := add_output ps.1 q.2.2
  (pc.1, p1.2, p2.2, p3.2, ps.2, pc.2)

/-- C5: in the circuit consisting of a `full_adder` wired to three distinct
`Input` nodes, for all 8 boolean combinations of `(a, b, c_in)`: after setting
the inputs and evaluating until settled (`maxRank + 1` invocations of
`update_signals_once` with the order computed once after construction, as the
repository's test does), the sum node reads `a XOR b XOR c_in` and the
carry-out node reads `(a AND b) OR (c_in AND (a XOR b))`. -/
theorem C5_full_adder_truth_table :
    ∀ a b cin : Bool,
      (updateN (set_input (set_input (set_input demoFullAdder.1 demoFullAdder.2.1 a)
            demoFullAdder.2.2.1 b) demoFullAdder.2.2.2.1 cin)
          (update_order demoFullAdder.1)
          (maxRank demoFullAdder.1 + 1)).bind
          (fun F' => get_1_in F' demoFullAdder.2.2.2.2.1) = some (xor a (xor b cin)) ∧
      (updateN (set_input (set_input (set_input demoFullAdder.1 demoFullAdder.2.1 a)
            demoFullAdder.2.2.1 b) demoFullAdder.2.2.2.1 cin)
          (update_order demoFullAdder.1)
          (maxRank demoFullAdder.1 + 1)).bind
          (fun F' => get_1_in F' demoFullAdder.2.2.2.2.2)
        = some ((a && b) || (cin && xor a b)) := by
  decide

end Circuit

namespace Circuit

/-- Exact growth: later construction steps append nodes and wires into fresh
nodes only, leaving every existing node's incoming wire list (values included)
untouched. -/
def GrowsE (c F : Circuit) : Prop :=
  c.nodes <+: F.nodes ∧ ∀ n, n < c.nodes.length → incoming F n = incoming c n

theorem GrowsE.toGrows {c F : Circuit} (h : GrowsE c F) : Grows c F :=
  ⟨h.1, fun n hn => by rw [shape, shape, h.2 n hn]⟩

theorem growsE_refl (c : Circuit) : GrowsE c c := ⟨List.prefix_refl _, fun _ _ => rfl⟩

theorem growsE_trans {c d F : Circuit} (h1 : GrowsE c d) (h2 : GrowsE d F) : GrowsE c F :=
  ⟨h1.1.trans h2.1,
    fun n hn => (h2.2 n (lt_of_lt_of_le hn h1.1.length_le)).trans (h1.2 n hn)⟩

theorem growsE_append {c : Circuit} {g : Gate} {tail : List Edge}
    (htail : ∀ e ∈ tail, e.tgt = c.nodes.length) :
    GrowsE c ⟨c.nodes ++ [g], c.edges ++ tail⟩ := by
  refine ⟨⟨[g], rfl⟩, fun n hn => ?_⟩
  have htf : (tail.filter fun e => e.tgt == n) = [] := by
    rw [List.filter_eq_nil_iff]
    intro e he
    simp only [beq_iff_eq, htail e he]
    omega
  rw [incoming_mk_append, htf, List.append_nil]
  rfl

theorem GrowsE.nodes_lookup {c F : Circuit} (h : GrowsE c F) {i : Nat} {g : Gate}
    (hi : c.nodes[i]? = some g) : F.nodes[i]? = some g := by
  obtain ⟨t, ht⟩ := h.1
  have hlt : i < c.nodes.length := by
    by_contra hge
    rw [List.getElem?_eq_none (Nat.le_of_not_lt hge)] at hi
    exact Option.noConfusion hi
  rw [← ht, List.getElem?_append_left hlt]
  exact hi

/-- Equation-style bundle for `add_input`. -/
theorem wf_add_input {c c' : Circuit} {r : Nat} (hS : Sane c) (hA : ArityOk c)
    (heq : add_input c = (c', r)) :
    Sane c' ∧ ArityOk c' ∧ GrowsE c c' ∧ r = c.nodes.length ∧
    c'.nodes.length = c.nodes.length + 1 ∧
    c'.nodes[r]? = some Gate.Input ∧ incoming c' r = [⟨0, r, false⟩] := by
  have h := add_input_step hS hA
  have hstep := add_input_eq hS.tgts_lt
  rw [hstep] at heq
  have hc : c' = ⟨c.nodes ++ [Gate.Input], c.edges ++ [⟨0, c.nodes.length, false⟩]⟩ :=
    (congrArg Prod.fst heq).symm
  have hr : r = c.nodes.length := (congrArg Prod.snd heq).symm
  subst hc hr
  refine ⟨?_, ?_, ?_, rfl, by simp, ?_, ?_⟩
  · rw [hstep] at h
    exact h.2.2.1
  · rw [hstep] at h
    exact h.2.2.2.1
  · exact growsE_append fun e he => by simp at he; rw [he]
  · rw [List.getElem?_append_right (le_refl _)]
    simp
  · exact incoming_append_new hS.tgts_lt fun e he => by simp at he; rw [he]

/-- Equation-style bundle for `add_output`. -/
theorem wf_add_output {c c' : Circuit} {a r : Nat} (hS : Sane c) (hA : ArityOk c)
    (ha : a < c.nodes.length) (heq : add_output c a = (c', r)) :
    Sane c' ∧ ArityOk c' ∧ GrowsE c c' ∧ r = c.nodes.length ∧
    c'.nodes.length = c.nodes.length + 1 ∧
    c'.nodes[r]? = some Gate.Output ∧ incoming c' r = [⟨a, r, false⟩] := by
  have h := add_output_step hS hA ha
  have hstep := @add_output_eq c a hS.tgts_lt
  rw [hstep] at heq
  have hc : c' = ⟨c.nodes ++ [Gate.Output], c.edges ++ [⟨a, c.nodes.length, false⟩]⟩ :=
    (congrArg Prod.fst heq).symm
  have hr : r = c.nodes.length := (congrArg Prod.snd heq).symm
  subst hc hr
  refine ⟨?_, ?_, ?_, rfl, by simp, ?_, ?_⟩
  · rw [hstep] at h
    exact h.2.2.1
  · rw [hstep] at h
    exact h.2.2.2.1
  · exact growsE_append fun e he => by simp at he; rw [he]
  · rw [List.getElem?_append_right (le_refl _)]
    simp
  · exact incoming_append_new hS.tgts_lt fun e he => by simp at he; rw [he]

/-- Equation-style bundle for `add_xor` on distinct operands. -/
theorem wf_add_xor {c c' : Circuit} {a b r : Nat} (hS : Sane c) (hA : ArityOk c)
    (ha : a < c.nodes.length) (hb : b < c.nodes.length) (hab : a ≠ b)
    (heq : add_xor c a b = (c', r)) :
    Sane c' ∧ ArityOk c' ∧ GrowsE c c' ∧ r = c.nodes.length ∧
    c'.nodes.length = c.nodes.length + 1 ∧ GateAt c' r Gate.Xor [a, b] := by
  have h := add_xor_step hS hA ha hb hab
  have hstep := @add_xor_eq c a b hS.tgts_lt hab
  rw [hstep] at heq
  have hc : c' = ⟨c.nodes ++ [Gate.Xor],
      c.edges ++ [⟨a, c.nodes.length, false⟩, ⟨b, c.nodes.length, false⟩]⟩ :=
    (congrArg Prod.fst heq).symm
  have hr : r = c.nodes.length := (congrArg Prod.snd heq).symm
  subst hc hr
  rw [hstep] at h
  refine ⟨h.2.2.1, h.2.2.2.1, ?_, rfl, by simp, h.2.2.2.2.2⟩
  refine ⟨⟨[Gate.Xor], rfl⟩, fun n hn => ?_⟩
  have htail : ∀ e ∈ [(⟨a, c.nodes.length, false⟩ : Edge), ⟨b, c.nodes.length, false⟩],
      e.tgt = c.nodes.length := by
    intro e he
    rcases List.mem_cons.mp he with rfl | he'
    · rfl
    · simp at he'
      rw [he']
  exact (growsE_append htail).2 n hn

/-- Equation-style bundle for `add_and` on distinct operands. -/
theorem wf_add_and {c c' : Circuit} {a b r : Nat} (hS : Sane c) (hA : ArityOk c)
    (ha : a < c.nodes.length) (hb : b < c.nodes.length) (hab : a ≠ b)
    (heq : add_and c a b = (c', r)) :
    Sane c' ∧ ArityOk c' ∧ GrowsE c c' ∧ r = c.nodes.length ∧
    c'.nodes.length = c.nodes.length + 1 ∧ GateAt c' r Gate.And [a, b] := by
  have h := add_and_step hS hA ha hb hab
  have hstep := @add_and_eq c a b hS.tgts_lt hab
  rw [hstep] at heq
  have hc : c' = ⟨c.nodes ++ [Gate.And],
      c.edges ++ [⟨a, c.nodes.length, false⟩, ⟨b, c.nodes.length, false⟩]⟩ :=
    (congrArg Prod.fst heq).symm
  have hr : r = c.nodes.length := (congrArg Prod.snd heq).symm
  subst hc hr
  rw [hstep] at h
  refine ⟨h.2.2.1, h.2.2.2.1, ?_, rfl, by simp, h.2.2.2.2.2⟩
  refine ⟨⟨[Gate.And], rfl⟩, fun n hn => ?_⟩
  have htail : ∀ e ∈ [(⟨a, c.nodes.length, false⟩ : Edge), ⟨b, c.nodes.length, false⟩],
      e.tgt = c.nodes.length := by
    intro e he
    rcases List.mem_cons.mp he with rfl | he'
    · rfl
    · simp at he'
      rw [he']
  exact (growsE_append htail).2 n hn

/-- Equation-style bundle for `add_or` on distinct operands. -/
theorem wf_add_or {c c' : Circuit} {a b r : Nat} (hS : Sane c) (hA : ArityOk c)
    (ha : a < c.nodes.length) (hb : b < c.nodes.length) (hab : a ≠ b)
    (heq : add_or c a b = (c', r)) :
    Sane c' ∧ ArityOk c' ∧ GrowsE c c' ∧ r = c.nodes.length ∧
    c'.nodes.length = c.nodes.length + 1 ∧ GateAt c' r Gate.Or [a, b] := by
  have h := add_or_step hS hA ha hb hab
  have hstep := @add_or_eq c a b hS.tgts_lt hab
  rw [hstep] at heq
  have hc : c' = ⟨c.nodes ++ [Gate.Or],
      c.edges ++ [⟨a, c.nodes.length, false⟩, ⟨b, c.nodes.length, false⟩]⟩ :=
    (congrArg Prod.fst heq).symm
  have hr : r = c.nodes.length := (congrArg Prod.snd heq).symm
  subst hc hr
  rw [hstep] at h
  refine ⟨h.2.2.1, h.2.2.2.1, ?_, rfl, by simp, h.2.2.2.2.2⟩
  refine ⟨⟨[Gate.Or], rfl⟩, fun n hn => ?_⟩
  have htail : ∀ e ∈ [(⟨a, c.nodes.length, false⟩ : Edge), ⟨b, c.nodes.length, false⟩],
      e.tgt = c.nodes.length := by
    intro e he
    rcases List.mem_cons.mp he with rfl | he'
    · rfl
    · simp at he'
      rw [he']
  exact (growsE_append htail).2 n hn

end Circuit

namespace Circuit

/-- The carry recurrence of a ripple-carry chain of full adders:
`carrySeq av bv c0 t` is the carry flowing into stage `t` of the chain whose
stage inputs are `av`/`bv` and whose initial carry is `c0`. -/
def carrySeq (av bv : Nat → Bool) (c0 : Bool) : Nat → Bool
  | 0 => c0
  | t + 1 => (av t && bv t) || (carrySeq av bv c0 t && xor (av t) (bv t))

theorem carrySeq_shift (av bv : Nat → Bool) (c0 : Bool) (j : Nat) :
    carrySeq av bv c0 (j + 1)
      = carrySeq (fun t => av (t + 1)) (fun t => bv (t + 1))
          ((av 0 && bv 0) || (c0 && xor (av 0) (bv 0))) j := by
  induction j with
  | zero => rfl
  | succ j ih => rw [carrySeq, ih, carrySeq]

/-- Reassemble a little-endian list of bits into the unsigned integer it
denotes (the repository folds `set_bit` over a zero accumulator to the same
effect). -/
def natOfBits : List Bool → Nat
  | [] => 0
  | b :: bs => (cond b 1 0) + 2 * natOfBits bs

/-- Build `n` fresh `Input` nodes, as the repository's test and demo do with
`(0..n).map(|_| circuit.add_input())`. -/
def mkInputs : Circuit → Nat → Circuit × List Nat
  | c, 0 => (c, [])
  | c, Nat.succ n =>
    let p := add_input c
    let q := mkInputs p.1 n
    (q.1, p.2 :: q.2)

/-- Wrap each listed node in an `Output` gate, as the repository's test does
with `s.into_iter().map(|si| circuit.add_output(si))`. -/
def addOutputs : Circuit → List Nat → Circuit × List Nat
  | c, [] => (c, [])
  | c, s :: rest =>
    let p := add_output c s
    let q := addOutputs p.1 rest
    (q.1, p.2 :: q.2)

/-- Set the listed input nodes to the bits of a value starting at bit `k`, as
the repository's test does with `circuit.set_input(a[i], get_bit(a_, i))`. -/
def setInputs : Circuit → List Nat → (Nat → Bool) → Nat → Circuit
  | c, [], _, _ => c
  | c, i :: rest, f, k => setInputs (set_input c i (f k)) rest f (k + 1)

/-- The ripple-carry demo pipeline of `test_ripple_carry`: `n` input bits for
each operand, the `ripple_carry` builder, an `Output` gate per sum bit, and
the operand bits loaded with `set_input`/`get_bit`.  Returns the loaded
circuit and the sum-bit output handles; `none` when `ripple_carry` panics. -/
def rippleCircuit (n A B : Nat) : Option (Circuit × List Nat) :=
  let p1 := mkInputs Circuit.new n
  let p2 := mkInputs p1.1 n
  match ripple_carry p2.1 p1.2 p2.2 with
  | none => none
  | some (c3, ss, _) =>
    let p4 := addOutputs c3 ss
    some (setInputs (setInputs p4.1 p1.2 (get_bit A) 0) p2.2 (get_bit B) 0, p4.2)

theorem mkInputs_spec : ∀ (n : Nat) (c : Circuit), Sane c → ArityOk c →
    (mkInputs c n).2 = List.range' c.nodes.length n ∧
    (mkInputs c n).1.nodes.length = c.nodes.length + n ∧
    Sane (mkInputs c n).1 ∧ ArityOk (mkInputs c n).1 ∧ GrowsE c (mkInputs c n).1 ∧
    ∀ i ∈ (mkInputs c n).2, (mkInputs c n).1.nodes[i]? = some Gate.Input ∧
      incoming (mkInputs c n).1 i = [⟨0, i, false⟩] := by
  intro n
  induction n with
  | zero =>
    intro c hS hA
    exact ⟨rfl, rfl, hS, hA, growsE_refl c, fun i hi => absurd hi (List.not_mem_nil i)⟩
  | succ n ih =>
    intro c hS hA
    obtain ⟨⟨c1, r⟩, hp⟩ : ∃ p, add_input c = p := ⟨_, rfl⟩
    obtain ⟨hS1, hA1, hg1, hr, hl1, hk1, hi1⟩ := wf_add_input hS hA hp
    obtain ⟨hlist, hlen, hS2, hA2, hg2, hmem⟩ := ih c1 hS1 hA1
    have hred : mkInputs c (n + 1) = ((mkInputs c1 n).1, r :: (mkInputs c1 n).2) := by
      rw [mkInputs, hp]
    rw [hred]
    dsimp only
    have hrlt : r < c1.nodes.length := by omega
    refine ⟨?_, by omega, hS2, hA2, growsE_trans hg1 hg2, ?_⟩
    · rw [hlist, hl1, hr]
      rfl
    · intro i hi
      rcases List.mem_cons.mp hi with rfl | hi'
      · exact ⟨hg2.nodes_lookup hk1, (hg2.2 i hrlt).trans hi1⟩
      · exact hmem i hi'

theorem addOutputs_spec : ∀ (ss : List Nat) (c : Circuit), Sane c → ArityOk c →
    (∀ s ∈ ss, s < c.nodes.length) →
    Sane (addOutputs c ss).1 ∧ ArityOk (addOutputs c ss).1 ∧ GrowsE c (addOutputs c ss).1 ∧
    (addOutputs c ss).2.length = ss.length ∧
    ∀ j, (_ : j < ss.length) →
      (addOutputs c ss).1.nodes[(addOutputs c ss).2.getD j 0]? = some Gate.Output ∧
      incoming (addOutputs c ss).1 ((addOutputs c ss).2.getD j 0)
        = [⟨ss.getD j 0, (addOutputs c ss).2.getD j 0, false⟩] ∧
      c.nodes.length ≤ (addOutputs c ss).2.getD j 0 := by
  intro ss
  induction ss with
  | nil =>
    intro c hS hA _
    exact ⟨hS, hA, growsE_refl c, rfl, fun j hj => absurd hj (by simp)⟩
  | cons s rest ih =>
    intro c hS hA hbnd
    obtain ⟨⟨c1, r⟩, hp⟩ : ∃ p, add_output c s = p := ⟨_, rfl⟩
    obtain ⟨hS1, hA1, hg1, hr, hl1, hk1, hi1⟩ :=
      wf_add_output hS hA (hbnd s (List.mem_cons_self s rest)) hp
    obtain ⟨hS2, hA2, hg2, hlen, hmem⟩ := ih c1 hS1 hA1
      (fun x hx => by have := hbnd x (List.mem_cons_of_mem s hx); omega)
    have hred : addOutputs c (s :: rest) = ((addOutputs c1 rest).1, r :: (addOutputs c1 rest).2) := by
      rw [addOutputs, hp]
    rw [hred]
    dsimp only
    have hrlt : r < c1.nodes.length := by omega
    refine ⟨hS2, hA2, growsE_trans hg1 hg2, by simp [hlen], ?_⟩
    intro j hj
    cases j with
    | zero =>
      refine ⟨hg2.nodes_lookup hk1, ?_, show c.nodes.length ≤ r by omega⟩
      show incoming (addOutputs c1 rest).1 r = [⟨s, r, false⟩]
      exact (hg2.2 r hrlt).trans hi1
    | succ j =>
      have hj' : j < rest.length := by simp at hj; omega
      obtain ⟨hx1, hx2, hx3⟩ := hmem j hj'
      exact ⟨hx1, hx2, show c.nodes.length ≤ (addOutputs c1 rest).2.getD j 0 by omega⟩

end Circuit

namespace Circuit

theorem set_input_shape {c : Circuit} {i : Nat} {w : Bool} (v : Bool)
    (hinc : incoming c i = [⟨0, i, w⟩]) :
    ∀ q, shape (set_input c i v) q = shape c q := by
  intro q
  by_cases hqi : q = i
  · subst hqi
    rw [shape, shape, (set_input_spec v hinc).2.1, hinc]
    simp
  · rw [shape, shape, (set_input_spec v hinc).2.2 q hqi]

theorem setInputs_spec : ∀ (ns : List Nat) (c : Circuit) (f : Nat → Bool) (k : Nat),
    Sane c → ArityOk c → ns.Nodup →
    (∀ i ∈ ns, c.nodes[i]? = some Gate.Input ∧ ∃ w, incoming c i = [⟨0, i, w⟩]) →
    (setInputs c ns f k).nodes = c.nodes ∧
    Sane (setInputs c ns f k) ∧ ArityOk (setInputs c ns f k) ∧
    (∀ j, (_ : j < ns.length) → incoming (setInputs c ns f k) (ns.getD j 0)
      = [⟨0, ns.getD j 0, f (k + j)⟩]) ∧
    (∀ m, m ∉ ns → incoming (setInputs c ns f k) m = incoming c m) ∧
    ∀ q, shape (setInputs c ns f k) q = shape c q := by
  intro ns
  induction ns with
  | nil =>
    intro c f k hS hA _ _
    exact ⟨rfl, hS, hA, fun j hj => absurd hj (by simp), fun m _ => rfl, fun _ => rfl⟩
  | cons i rest ih =>
    intro c f k hS hA hnd hfacts
    obtain ⟨hki, w, hwi⟩ := hfacts i (List.mem_cons_self i rest)
    obtain ⟨hn1, hset, hother⟩ := set_input_spec (f k) hwi
    have hS1 : Sane (set_input c i (f k)) := set_input_sane (f k) hS hwi
    have hA1 : ArityOk (set_input c i (f k)) := set_input_arity (f k) hA hwi
    have hnotmem : i ∉ rest := (List.nodup_cons.mp hnd).1
    have hfacts1 : ∀ x ∈ rest, (set_input c i (f k)).nodes[x]? = some Gate.Input ∧
        ∃ w', incoming (set_input c i (f k)) x = [⟨0, x, w'⟩] := by
      intro x hx
      obtain ⟨hkx, w', hwx⟩ := hfacts x (List.mem_cons_of_mem i hx)
      have hxi : x ≠ i := fun h => hnotmem (h ▸ hx)
      exact ⟨by rw [hn1]; exact hkx, w', by rw [hother x hxi]; exact hwx⟩
    obtain ⟨hn2, hS2, hA2, hidx, hother2, hshape2⟩ :=
      ih (set_input c i (f k)) f (k + 1) hS1 hA1 (List.nodup_cons.mp hnd).2 hfacts1
    have hred : setInputs c (i :: rest) f k = setInputs (set_input c i (f k)) rest f (k + 1) :=
      rfl
    rw [hred]
    refine ⟨by rw [hn2, hn1], hS2, hA2, ?_, ?_, ?_⟩
    · intro j hj
      cases j with
      | zero =>
        show incoming (setInputs (set_input c i (f k)) rest f (k + 1)) i
          = [⟨0, i, f (k + 0)⟩]
        rw [hother2 i hnotmem, hset]
        rfl
      | succ j =>
        have hj' : j < rest.length := by simp at hj; omega
        have := hidx j hj'
        show incoming (setInputs (set_input c i (f k)) rest f (k + 1)) (rest.getD j 0)
          = [⟨0, rest.getD j 0, f (k + (j + 1))⟩]
        rw [this]
        have : k + 1 + j = k + (j + 1) := by omega
        rw [this]
    · intro m hm
      have hmi : m ≠ i := fun h => hm (h ▸ List.mem_cons_self i rest)
      have hmr : m ∉ rest := fun h => hm (List.mem_cons_of_mem i h)
      rw [hother2 m hmr, hother m hmi]
    · intro q
      rw [hshape2 q, set_input_shape (f k) hwi q]

end Circuit

namespace Circuit

theorem applyGate_xor (x y : Bool) : applyGate Gate.Xor [x, y] = xor x y := rfl

theorem applyGate_and (x y : Bool) : applyGate Gate.And [x, y] = (x && y) := rfl

theorem applyGate_or (x y : Bool) : applyGate Gate.Or [x, y] = (x || y) := rfl

/-- Structural and settled-value specification of `half_adder` on distinct
positive operands: the sum node is an XOR of the operands and the carry an
AND, in every sane later extension of the produced circuit. -/
theorem half_adder_spec {c c' : Circuit} {a b s co : Nat}
    (hS : Sane c) (hA : ArityOk c)
    (ha : a < c.nodes.length) (hb : b < c.nodes.length)
    (h0a : 0 < a) (h0b : 0 < b) (hab : a ≠ b)
    (heq : half_adder c a b = (c', s, co)) :
    Sane c' ∧ ArityOk c' ∧ GrowsE c c' ∧ c'.nodes.length = c.nodes.length + 2 ∧
    s < c'.nodes.length ∧ co < c'.nodes.length ∧ 0 < s ∧ 0 < co ∧
    ∀ F, Grows c' F → Sane F →
      denote F s = xor (denote F a) (denote F b) ∧
      denote F co = (denote F a && denote F b) := by
  obtain ⟨⟨c1, x1⟩, h1⟩ : ∃ p, add_xor c a b = p := ⟨_, rfl⟩
  obtain ⟨hS1, hA1, hg1, hx1, hl1, hgate1⟩ := wf_add_xor hS hA ha hb hab h1
  obtain ⟨⟨c2, x2⟩, h2⟩ : ∃ p, add_and c1 a b = p := ⟨_, rfl⟩
  obtain ⟨hS2, hA2, hg2, hx2, hl2, hgate2⟩ :=
    wf_add_and hS1 hA1 (by omega) (by omega) hab h2
  have hred : half_adder c a b = (c2, x1, x2) := by
    dsimp only [half_adder]
    rw [h1]
    dsimp only
    rw [h2]
  rw [hred] at heq
  obtain ⟨hc, hs, hco⟩ : c' = c2 ∧ s = x1 ∧ co = x2 := by
    refine ⟨(congrArg Prod.fst heq).symm, ?_, ?_⟩
    · exact (congrArg (fun p : Circuit × Nat × Nat => p.2.1) heq).symm
    · exact (congrArg (fun p : Circuit × Nat × Nat => p.2.2) heq).symm
  subst hc hs hco
  refine ⟨hS2, hA2, growsE_trans hg1 hg2, by omega, by omega, by omega, by omega, by omega, ?_⟩
  intro F hGF hSF
  have hG1F : Grows c1 F := grows_trans hg2.toGrows hGF
  have hgs : GateAt F s Gate.Xor [a, b] := hgate1.mono hG1F
  have hgc : GateAt F co Gate.And [a, b] := hgate2.mono hGF
  constructor
  · rw [denote_gate2 hSF hgs h0a h0b, applyGate_xor]
  · rw [denote_gate2 hSF hgc h0a h0b, applyGate_and]

/-- Structural and settled-value specification of `full_adder` on distinct
positive operands: the sum node settles to `a XOR b XOR c_in` and the carry
node to `(a AND b) OR (c_in AND (a XOR b))` in every sane later extension. -/
theorem full_adder_spec {c c' : Circuit} {a b cin s co : Nat}
    (hS : Sane c) (hA : ArityOk c)
    (ha : a < c.nodes.length) (hb : b < c.nodes.length) (hcin : cin < c.nodes.length)
    (h0a : 0 < a) (h0b : 0 < b) (h0cin : 0 < cin) (hab : a ≠ b)
    (heq : full_adder c a b cin = (c', s, co)) :
    Sane c' ∧ ArityOk c' ∧ GrowsE c c' ∧ c'.nodes.length = c.nodes.length + 5 ∧
    s < c'.nodes.length ∧ co < c'.nodes.length ∧ 0 < s ∧ 0 < co ∧
    ∀ F, Grows c' F → Sane F →
      denote F s = xor (xor (denote F a) (denote F b)) (denote F cin) ∧
      denote F co = ((denote F a && denote F b)
        || (denote F cin && xor (denote F a) (denote F b))) := by
  obtain ⟨⟨c1, x1⟩, h1⟩ : ∃ p, add_xor c a b = p := ⟨_, rfl⟩
  obtain ⟨hS1, hA1, hg1, hx1, hl1, hgate1⟩ := wf_add_xor hS hA ha hb hab h1
  obtain ⟨⟨c2, x2⟩, h2⟩ : ∃ p, add_xor c1 x1 cin = p := ⟨_, rfl⟩
  obtain ⟨hS2, hA2, hg2, hx2, hl2, hgate2⟩ :=
    wf_add_xor hS1 hA1 (by omega) (by omega) (by omega) h2
  obtain ⟨⟨c3, x3⟩, h3⟩ : ∃ p, add_and c2 a b = p := ⟨_, rfl⟩
  obtain ⟨hS3, hA3, hg3, hx3, hl3, hgate3⟩ :=
    wf_add_and hS2 hA2 (by omega) (by omega) hab h3
  obtain ⟨⟨c4, x4⟩, h4⟩ : ∃ p, add_and c3 cin x1 = p := ⟨_, rfl⟩
  obtain ⟨hS4, hA4, hg4, hx4, hl4, hgate4⟩ :=
    wf_add_and hS3 hA3 (by omega) (by omega) (by omega) h4
  obtain ⟨⟨c5, x5⟩, h5⟩ : ∃ p, add_or c4 x3 x4 = p := ⟨_, rfl⟩
  obtain ⟨hS5, hA5, hg5, hx5, hl5, hgate5⟩ :=
    wf_add_or hS4 hA4 (by omega) (by omega) (by omega) h5
  have hred : full_adder c a b cin = (c5, x2, x5) := by
    dsimp only [full_adder]
    rw [h1]
    dsimp only
    rw [h2]
    dsimp only
    rw [h3]
    dsimp only
    rw [h4]
    dsimp only
    rw [h5]
  rw [hred] at heq
  obtain ⟨hc, hs, hco⟩ : c' = c5 ∧ s = x2 ∧ co = x5 := by
    refine ⟨(congrArg Prod.fst heq).symm, ?_, ?_⟩
    · exact (congrArg (fun p : Circuit × Nat × Nat => p.2.1) heq).symm
    · exact (congrArg (fun p : Circuit × Nat × Nat => p.2.2) heq).symm
  subst hc hs hco
  refine ⟨hS5, hA5,
    growsE_trans hg1 (growsE_trans hg2 (growsE_trans hg3 (growsE_trans hg4 hg5))),
    by omega, by omega, by omega, by omega, by omega, ?_⟩
  intro F hGF hSF
  have hG4F : Grows c4 F := grows_trans hg5.toGrows hGF
  have hG3F : Grows c3 F := grows_trans hg4.toGrows hG4F
  have hG2F : Grows c2 F := grows_trans hg3.toGrows hG3F
  have hG1F : Grows c1 F := grows_trans hg2.toGrows hG2F
  have hgaxb : GateAt F x1 Gate.Xor [a, b] := hgate1.mono hG1F
  have hgsum : GateAt F s Gate.Xor [x1, cin] := hgate2.mono hG2F
  have hgi1 : GateAt F x3 Gate.And [a, b] := hgate3.mono hG3F
  have hgi2 : GateAt F x4 Gate.And [cin, x1] := hgate4.mono hG4F
  have hgor : GateAt F co Gate.Or [x3, x4] := hgate5.mono hGF
  have daxb : denote F x1 = xor (denote F a) (denote F b) := by
    rw [denote_gate2 hSF hgaxb h0a h0b, applyGate_xor]
  have dsum : denote F s = xor (denote F x1) (denote F cin) := by
    rw [denote_gate2 hSF hgsum (by omega) h0cin, applyGate_xor]
  have di1 : denote F x3 = (denote F a && denote F b) := by
    rw [denote_gate2 hSF hgi1 h0a h0b, applyGate_and]
  have di2 : denote F x4 = (denote F cin && denote F x1) := by
    rw [denote_gate2 hSF hgi2 h0cin (by omega), applyGate_and]
  have dco : denote F co = (denote F x3 || denote F x4) := by
    rw [denote_gate2 hSF hgor (by omega) (by omega), applyGate_or]
  exact ⟨by rw [dsum, daxb], by rw [dco, di1, di2, daxb]⟩

end Circuit

namespace Circuit

/-- Full specification of the ripple-carry loop: structural growth facts plus
the settled value of every produced sum node and of the final carry node, in
any sane later extension `F`, in terms of the settled values of the operand
nodes (`av`/`bv`) and of the incoming carry node. -/
theorem rippleLoop_spec : ∀ (pairs : List (Nat × Nat)) (c : Circuit) (carry : Nat)
    (c' : Circuit) (ss : List Nat) (cf : Nat),
    Sane c → ArityOk c →
    carry < c.nodes.length → 0 < carry →
    (∀ p ∈ pairs, p.1 < c.nodes.length ∧ p.2 < c.nodes.length ∧
      0 < p.1 ∧ 0 < p.2 ∧ p.1 ≠ p.2) →
    rippleLoop c carry pairs = (c', ss, cf) →
    Sane c' ∧ ArityOk c' ∧ GrowsE c c' ∧ c.nodes.length ≤ c'.nodes.length ∧
    ss.length = pairs.length ∧ cf < c'.nodes.length ∧ 0 < cf ∧
    (∀ x ∈ ss, x < c'.nodes.length ∧ 0 < x) ∧
    ∀ F, Grows c' F → Sane F → ∀ av bv : Nat → Bool,
      (∀ t, (_ : t < pairs.length) → av t = denote F (pairs.getD t (0, 0)).1) →
      (∀ t, (_ : t < pairs.length) → bv t = denote F (pairs.getD t (0, 0)).2) →
      (∀ j, (_ : j < pairs.length) → denote F (ss.getD j 0)
        = xor (xor (av j) (bv j)) (carrySeq av bv (denote F carry) j)) ∧
      denote F cf = carrySeq av bv (denote F carry) pairs.length := by
  intro pairs
  induction pairs with
  | nil =>
    intro c carry c' ss cf hS hA hcarry h0carry _ heq
    rw [rippleLoop] at heq
    obtain ⟨hc, hss, hcf⟩ : c' = c ∧ ss = [] ∧ cf = carry := by
      refine ⟨(congrArg Prod.fst heq).symm, ?_, ?_⟩
      · exact (congrArg (fun p : Circuit × List Nat × Nat => p.2.1) heq).symm
      · exact (congrArg (fun p : Circuit × List Nat × Nat => p.2.2) heq).symm
    subst hc hss hcf
    refine ⟨hS, hA, growsE_refl _, le_refl _, rfl, hcarry, h0carry,
      fun x hx => absurd hx (List.not_mem_nil x), ?_⟩
    intro F _ _ av bv _ _
    exact ⟨fun j hj => absurd hj (by simp), rfl⟩
  | cons p rest ih =>
    intro c carry c' ss cf hS hA hcarry h0carry hbnd heq
    obtain ⟨hp1, hp2, h0p1, h0p2, hp12⟩ := hbnd p (List.mem_cons_self p rest)
    obtain ⟨⟨c1, s1, co1⟩, hfa⟩ : ∃ t, full_adder c p.1 p.2 carry = t := ⟨_, rfl⟩
    obtain ⟨hS1, hA1, hgE1, hl1, hs1lt, hco1lt, h0s1, h0co1, hsem1⟩ :=
      full_adder_spec hS hA hp1 hp2 hcarry h0p1 h0p2 h0carry hp12 hfa
    obtain ⟨⟨c2, ss2, cf2⟩, hloop⟩ : ∃ t, rippleLoop c1 co1 rest = t := ⟨_, rfl⟩
    obtain ⟨hS2, hA2, hgE2, hle2, hss2len, hcf2lt, h0cf2, hssmem, hsem2⟩ :=
      ih c1 co1 c2 ss2 cf2 hS1 hA1 hco1lt h0co1
        (fun q hq => by
          obtain ⟨hq1, hq2, hq3, hq4, hq5⟩ := hbnd q (List.mem_cons_of_mem p hq)
          exact ⟨by omega, by omega, hq3, hq4, hq5⟩) hloop
    have hred : rippleLoop c carry (p :: rest) = (c2, s1 :: ss2, cf2) := by
      rw [rippleLoop, hfa]
      dsimp only
      rw [hloop]
    rw [hred] at heq
    obtain ⟨hc, hss, hcf⟩ : c' = c2 ∧ ss = s1 :: ss2 ∧ cf = cf2 := by
      refine ⟨(congrArg Prod.fst heq).symm, ?_, ?_⟩
      · exact (congrArg (fun t : Circuit × List Nat × Nat => t.2.1) heq).symm
      · exact (congrArg (fun t : Circuit × List Nat × Nat => t.2.2) heq).symm
    subst hc hss hcf
    refine ⟨hS2, hA2, growsE_trans hgE1 hgE2, by omega, by simp [hss2len], hcf2lt, h0cf2, ?_, ?_⟩
    · intro x hx
      rcases List.mem_cons.mp hx with rfl | hx'
      · exact ⟨by omega, h0s1⟩
      · exact hssmem x hx'
    · intro F hGF hSF av bv hav hbv
      have hG1F : Grows c1 F := grows_trans hgE2.toGrows hGF
      obtain ⟨dsum, dcarry⟩ := hsem1 F hG1F hSF
      have hc0 : ((av 0 && bv 0) || (denote F carry && xor (av 0) (bv 0))) = denote F co1 := by
        rw [hav 0 (by simp), hbv 0 (by simp)]
        exact dcarry.symm
      obtain ⟨ihj, ihcf⟩ := hsem2 F hGF hSF (fun t => av (t + 1)) (fun t => bv (t + 1))
        (fun t ht => hav (t + 1) (by simp; omega))
        (fun t ht => hbv (t + 1) (by simp; omega))
      have hlink : ∀ j, carrySeq av bv (denote F carry) (j + 1)
          = carrySeq (fun t => av (t + 1)) (fun t => bv (t + 1)) (denote F co1) j := by
        intro j
        rw [carrySeq_shift]
        exact congrArg (fun x => carrySeq (fun t => av (t + 1)) (fun t => bv (t + 1)) x j) hc0
      constructor
      · intro j hj
        cases j with
        | zero =>
          show denote F s1 = xor (xor (av 0) (bv 0)) (carrySeq av bv (denote F carry) 0)
          rw [hav 0 (by simp), hbv 0 (by simp)]
          exact dsum
        | succ j =>
          have hj' : j < rest.length := by simp at hj; omega
          show denote F (ss2.getD j 0)
            = xor (xor (av (j + 1)) (bv (j + 1))) (carrySeq av bv (denote F carry) (j + 1))
          rw [hlink j]
          exact ihj j hj'
      · rw [List.length_cons, hlink rest.length]
        exact ihcf

end Circuit

/-- The carry into bit position `i` when adding `A` and `B`. -/
def carryB (A B i : Nat) : Bool :=
  decide (2 ^ i ≤ A % 2 ^ i + B % 2 ^ i)

theorem mod_two_pow_succ (A i : Nat) :
    A % 2 ^ (i + 1) = A % 2 ^ i + 2 ^ i * (A / 2 ^ i % 2) := by
  have hp : 0 < 2 ^ i := Nat.two_pow_pos i
  have h1 := Nat.div_add_mod A (2 ^ i)
  have h2 := Nat.div_add_mod (A / 2 ^ i) 2
  have h3 : A % 2 ^ i < 2 ^ i := Nat.mod_lt _ hp
  have h4 : A / 2 ^ i % 2 < 2 := Nat.mod_lt _ (by norm_num)
  have hpow : 2 ^ (i + 1) = 2 ^ i * 2 := by rw [Nat.pow_succ]
  have hA : A = 2 ^ (i + 1) * (A / 2 ^ i / 2) + (A % 2 ^ i + 2 ^ i * (A / 2 ^ i % 2)) := by
    rw [hpow]
    have hstep : 2 ^ i * 2 * (A / 2 ^ i / 2) + (A % 2 ^ i + 2 ^ i * (A / 2 ^ i % 2))
        = 2 ^ i * (2 * (A / 2 ^ i / 2) + A / 2 ^ i % 2) + A % 2 ^ i := by ring
    rw [hstep, h2, h1]
  conv_lhs => rw [hA]
  rw [Nat.mul_add_mod]
  apply Nat.mod_eq_of_lt
  have hb : 2 ^ i * (A / 2 ^ i % 2) ≤ 2 ^ i * 1 := Nat.mul_le_mul_left _ (by omega)
  rw [hpow]
  omega

theorem cond_testBit (A i : Nat) : cond (Nat.testBit A i) 1 0 = A / 2 ^ i % 2 := by
  rw [Nat.testBit_to_div_mod]
  have h : A / 2 ^ i % 2 < 2 := Nat.mod_lt _ (by norm_num)
  by_cases h1 : A / 2 ^ i % 2 = 1
  · simp [h1]
  · have h0 : A / 2 ^ i % 2 = 0 := by omega
    simp [h0]

theorem carryB_zero (A B : Nat) : carryB A B 0 = false := by
  simp [carryB]
  omega

theorem carryB_succ (A B i : Nat) :
    carryB A B (i + 1) = ((Nat.testBit A i && Nat.testBit B i)
      || (carryB A B i && xor (Nat.testBit A i) (Nat.testBit B i))) := by
  have hp : 0 < 2 ^ i := Nat.two_pow_pos i
  have hr1 : A % 2 ^ i < 2 ^ i := Nat.mod_lt _ hp
  have hr2 : B % 2 ^ i < 2 ^ i := Nat.mod_lt _ hp
  have hb1 : A / 2 ^ i % 2 < 2 := Nat.mod_lt _ (by norm_num)
  have hb2 : B / 2 ^ i % 2 < 2 := Nat.mod_lt _ (by norm_num)
  rw [carryB, carryB, mod_two_pow_succ A i, mod_two_pow_succ B i,
    Nat.testBit_to_div_mod, Nat.testBit_to_div_mod,
    show (2 : Nat) ^ (i + 1) = 2 ^ i * 2 from by rw [Nat.pow_succ]]
  by_cases h1 : A / 2 ^ i % 2 = 1 <;> by_cases h2 : B / 2 ^ i % 2 = 1
  · rw [h1, h2]
    by_cases hc : 2 ^ i ≤ A % 2 ^ i + B % 2 ^ i
    · rw [decide_eq_true_iff.mpr hc]
      simp
      omega
    · rw [decide_eq_false_iff_not.mpr hc]
      simp
      omega
  · have h2' : B / 2 ^ i % 2 = 0 := by omega
    rw [h1, h2']
    by_cases hc : 2 ^ i ≤ A % 2 ^ i + B % 2 ^ i
    · rw [decide_eq_true_iff.mpr hc]
      simp
      omega
    · rw [decide_eq_false_iff_not.mpr hc]
      simp
      omega
  · have h1' : A / 2 ^ i % 2 = 0 := by omega
    rw [h1', h2]
    by_cases hc : 2 ^ i ≤ A % 2 ^ i + B % 2 ^ i
    · rw [decide_eq_true_iff.mpr hc]
      simp
      omega
    · rw [decide_eq_false_iff_not.mpr hc]
      simp
      omega
  · have h1' : A / 2 ^ i % 2 = 0 := by omega
    have h2' : B / 2 ^ i % 2 = 0 := by omega
    rw [h1', h2']
    by_cases hc : 2 ^ i ≤ A % 2 ^ i + B % 2 ^ i
    · rw [decide_eq_true_iff.mpr hc]
      simp
      omega
    · rw [decide_eq_false_iff_not.mpr hc]
      simp
      omega

theorem testBit_add_carry (A B i : Nat) :
    Nat.testBit (A + B) i
      = xor (xor (Nat.testBit A i) (Nat.testBit B i)) (carryB A B i) := by
  have hp : 0 < 2 ^ i := Nat.two_pow_pos i
  have hr1 : A % 2 ^ i < 2 ^ i := Nat.mod_lt _ hp
  have hr2 : B % 2 ^ i < 2 ^ i := Nat.mod_lt _ hp
  have hsplit : (A + B) / 2 ^ i = A / 2 ^ i + B / 2 ^ i + (A % 2 ^ i + B % 2 ^ i) / 2 ^ i := by
    have hAB : A + B = 2 ^ i * (A / 2 ^ i + B / 2 ^ i) + (A % 2 ^ i + B % 2 ^ i) := by
      have h1 := Nat.div_add_mod A (2 ^ i)
      have h2 := Nat.div_add_mod B (2 ^ i)
      rw [Nat.mul_add]
      omega
    rw [hAB, Nat.mul_add_div hp]
  have hcb : (A % 2 ^ i + B % 2 ^ i) / 2 ^ i = cond (carryB A B i) 1 0 := by
    rw [carryB]
    by_cases hc : 2 ^ i ≤ A % 2 ^ i + B % 2 ^ i
    · rw [decide_eq_true_iff.mpr hc]
      show _ = 1
      apply Nat.div_eq_of_lt_le
      · omega
      · omega
    · rw [decide_eq_false_iff_not.mpr hc]
      show _ = 0
      apply Nat.div_eq_of_lt
      omega
  rw [Nat.testBit_to_div_mod, Nat.testBit_to_div_mod, Nat.testBit_to_div_mod, hsplit, hcb]
  by_cases h1 : A / 2 ^ i % 2 = 1 <;> by_cases h2 : B / 2 ^ i % 2 = 1 <;>
    cases hcv : carryB A B i <;>
      simp only [h1, h2, hcv, cond_true, cond_false] <;>
        (simp
         omega)

theorem carrySeq_testBit (A B : Nat) : ∀ j,
    Circuit.carrySeq (fun t => Nat.testBit A (t + 1)) (fun t => Nat.testBit B (t + 1))
      (carryB A B 1) j = carryB A B (j + 1) := by
  intro j
  induction j with
  | zero => rfl
  | succ j ih =>
    show ((Nat.testBit A (j + 1) && Nat.testBit B (j + 1))
        || (Circuit.carrySeq (fun t => Nat.testBit A (t + 1)) (fun t => Nat.testBit B (t + 1))
            (carryB A B 1) j && xor (Nat.testBit A (j + 1)) (Nat.testBit B (j + 1))))
      = carryB A B (j + 1 + 1)
    rw [ih, ← carryB_succ]

theorem natOfBits_append_single (l : List Bool) (b : Bool) :
    Circuit.natOfBits (l ++ [b])
      = Circuit.natOfBits l + 2 ^ l.length * cond b 1 0 := by
  induction l with
  | nil => simp [Circuit.natOfBits]
  | cons x xs ih =>
    rw [List.cons_append, Circuit.natOfBits, Circuit.natOfBits, ih, List.length_cons]
    ring

theorem natOfBits_range_testBit (S : Nat) : ∀ n,
    Circuit.natOfBits ((List.range n).map (Nat.testBit S)) = S % 2 ^ n := by
  intro n
  induction n with
  | zero =>
    simp [Circuit.natOfBits]
    omega
  | succ n ih =>
    rw [List.range_succ, List.map_append, List.map_cons, List.map_nil,
      natOfBits_append_single, List.length_map, List.length_range, ih,
      cond_testBit, ← mod_two_pow_succ]

namespace Circuit

theorem zip_range'_getD : ∀ (k s1 s2 t : Nat), t < k →
    ((List.range' s1 k).zip (List.range' s2 k)).getD t (0, 0) = (s1 + t, s2 + t) := by
  intro k
  induction k with
  | zero => intro s1 s2 t ht; omega
  | succ k ih =>
    intro s1 s2 t ht
    rw [List.range'_succ, List.range'_succ, List.zip_cons_cons]
    cases t with
    | zero => simp
    | succ t =>
      have := ih (s1 + 1) (s2 + 1) t (by omega)
      show ((List.range' (s1+1) k).zip (List.range' (s2+1) k)).getD t (0, 0) = _
      rw [this]
      simp only [Prod.mk.injEq]
      omega

theorem get_1_in_settle_output {F : Circuit} {o s : Nat} {w : Bool}
    (hk : F.nodes[o]? = some Gate.Output) (hinc : incoming F o = [⟨s, o, w⟩])
    (hs0 : s ≠ 0) :
    get_1_in (settle F) o = some (denote F s) := by
  have hincs : incoming (settle F) o = [⟨s, o, denote F s⟩] := by
    rw [settle, incoming_map_of_tgt_eq (fun e => by split <;> rfl) o, hinc]
    dsimp only [List.map]
    rw [if_neg hs0]
  have hks : (settle F).nodes[o]? = some Gate.Output := hk
  rw [get_1_in, hks, hincs]
  rfl

end Circuit
namespace Circuit

theorem rippleCircuit_spec (m A B : Nat) :
    ∃ F outs, rippleCircuit (m + 1) A B = some (F, outs) ∧
      updateN F (update_order F) (maxRank F + 1) = some (settle F) ∧
      natOfBits (outs.map fun o => (get_1_in (settle F) o).getD false)
        = (A + B) % 2 ^ (m + 1) := by
  obtain ⟨⟨c1, as⟩, h1⟩ : ∃ p, mkInputs Circuit.new (m + 1) = p := ⟨_, rfl⟩
  have M1 := mkInputs_spec (m + 1) Circuit.new (by decide) (by decide)
  rw [h1] at M1
  dsimp only at M1
  obtain ⟨has', hlen1, hS1, hA1, hgE1, hfact1⟩ := M1
  have hnew : Circuit.new.nodes.length = 1 := rfl
  have hlen1' : c1.nodes.length = m + 2 := by omega
  obtain ⟨⟨c2, bs⟩, h2⟩ : ∃ p, mkInputs c1 (m + 1) = p := ⟨_, rfl⟩
  have M2 := mkInputs_spec (m + 1) c1 hS1 hA1
  rw [h2] at M2
  dsimp only at M2
  obtain ⟨hbs, hlen2, hS2, hA2, hgE2, hfact2⟩ := M2
  have hbs' : bs = List.range' (m + 2) (m + 1) := by rw [hbs, hlen1']
  have hlen2' : c2.nodes.length = 2 * m + 3 := by rw [hlen2, hlen1']; omega
  have has'' : as = List.range' 1 (m + 1) := by rw [has', hnew]
  -- phase 3: the ripple-carry builder
  have hasc : as = 1 :: List.range' 2 m := by rw [has'', List.range'_succ]
  have hbsc : bs = (m + 2) :: List.range' (m + 3) m := by rw [hbs', List.range'_succ]
  obtain ⟨⟨ch, s0, co0⟩, hha⟩ : ∃ t, half_adder c2 1 (m + 2) = t := ⟨_, rfl⟩
  have HA := half_adder_spec hS2 hA2 (by omega) (by omega) (by omega) (by omega) (by omega) hha
  obtain ⟨hSh, hAh, hgEh, hlenh, hs0lt, hco0lt, h0s0, h0co0, hsemHA⟩ := HA
  have hlenh' : ch.nodes.length = 2 * m + 5 := by omega
  obtain ⟨⟨c3, ss, cf⟩, hrl⟩ : ∃ t,
      rippleLoop ch co0 ((List.range' 2 m).zip (List.range' (m + 3) m)) = t := ⟨_, rfl⟩
  have RL := rippleLoop_spec ((List.range' 2 m).zip (List.range' (m + 3) m)) ch co0 c3 ss cf
    hSh hAh hco0lt h0co0
    (by
      intro p hp
      obtain ⟨hp1, hp2⟩ := List.of_mem_zip hp
      have hm1 := List.mem_range'_1.mp hp1
      have hm2 := List.mem_range'_1.mp hp2
      exact ⟨by omega, by omega, by omega, by omega, by omega⟩) hrl
  obtain ⟨hS3, hA3, hgE3, hle3, hsslen, hcflt, h0cf, hssmem, hsemRL⟩ := RL
  have hpairslen : ((List.range' 2 m).zip (List.range' (m + 3) m)).length = m := by
    rw [List.length_zip, List.length_range', List.length_range', min_self]
  have hrc : ripple_carry c2 as bs = some (c3, s0 :: ss, cf) := by
    rw [hasc, hbsc, ripple_carry_cons (by rw [List.length_range', List.length_range']), hha]
    dsimp only
    rw [hrl]
  -- phase 4: output gates
  obtain ⟨⟨c4, outs⟩, ho⟩ : ∃ p, addOutputs c3 (s0 :: ss) = p := ⟨_, rfl⟩
  have AO := addOutputs_spec (s0 :: ss) c3 hS3 hA3 (by
    intro x hx
    rcases List.mem_cons.mp hx with rfl | hx'
    · omega
    · exact (hssmem x hx').1)
  rw [ho] at AO
  dsimp only at AO
  obtain ⟨hS4, hA4, hgE4, houtlen, hofact⟩ := AO
  have houtlen' : outs.length = m + 1 := by
    rw [houtlen, List.length_cons, hsslen, hpairslen]
  have hgE23 : GrowsE c2 c3 := growsE_trans hgEh hgE3
  have hgE24 : GrowsE c2 c4 := growsE_trans hgE23 hgE4
  -- phase 5: load operand bits
  have hasmem : ∀ i ∈ as, i < c2.nodes.length := by
    intro i hi
    rw [has''] at hi
    have := List.mem_range'_1.mp hi
    omega
  have hbsmem : ∀ i ∈ bs, i < c2.nodes.length := by
    intro i hi
    rw [hbs'] at hi
    have := List.mem_range'_1.mp hi
    omega
  have hfactA2 : ∀ i ∈ as, c2.nodes[i]? = some Gate.Input
      ∧ incoming c2 i = [⟨0, i, false⟩] := by
    intro i hi
    obtain ⟨hki, hii⟩ := hfact1 i hi
    have hilt : i < c1.nodes.length := by
      have hi2 := hi
      rw [has''] at hi2
      have := List.mem_range'_1.mp hi2
      omega
    exact ⟨hgE2.toGrows.nodes_getElem? hki, (hgE2.2 i hilt).trans hii⟩
  have hfactA4 : ∀ i ∈ as, c4.nodes[i]? = some Gate.Input
      ∧ ∃ w, incoming c4 i = [⟨0, i, w⟩] := by
    intro i hi
    obtain ⟨hki, hii⟩ := hfactA2 i hi
    exact ⟨hgE24.toGrows.nodes_getElem? hki, false, (hgE24.2 i (hasmem i hi)).trans hii⟩
  obtain ⟨G1, hG1⟩ : ∃ G, setInputs c4 as (get_bit A) 0 = G := ⟨_, rfl⟩
  have SI1 := setInputs_spec as c4 (get_bit A) 0 hS4 hA4
    (by rw [has'']; exact List.nodup_range' 1 (m + 1)) hfactA4
  rw [hG1] at SI1
  obtain ⟨hn5, hS5, hA5, hidx5, hoth5, hshape5⟩ := SI1
  have hdisj : ∀ i ∈ bs, i ∉ as := by
    intro i hi hia
    rw [hbs'] at hi
    rw [has''] at hia
    have := List.mem_range'_1.mp hi
    have := List.mem_range'_1.mp hia
    omega
  have hfactB5 : ∀ i ∈ bs, G1.nodes[i]? = some Gate.Input
      ∧ ∃ w, incoming G1 i = [⟨0, i, w⟩] := by
    intro i hi
    obtain ⟨hki, hii⟩ := hfact2 i hi
    refine ⟨by rw [hn5]; exact hgE24.toGrows.nodes_getElem? hki, false, ?_⟩
    rw [hoth5 i (hdisj i hi), hgE24.2 i (hbsmem i hi), hii]
  obtain ⟨F, hF⟩ : ∃ G, setInputs G1 bs (get_bit B) 0 = G := ⟨_, rfl⟩
  have SI2 := setInputs_spec bs G1 (get_bit B) 0 hS5 hA5
    (by rw [hbs']; exact List.nodup_range' (m + 2) (m + 1)) hfactB5
  rw [hF] at SI2
  obtain ⟨hn6, hS6, hA6, hidx6, hoth6, hshape6⟩ := SI2
  -- phase 6: the pipeline equation
  have hpipe : rippleCircuit (m + 1) A B = some (F, outs) := by
    unfold rippleCircuit
    rw [h1]
    dsimp only
    rw [h2]
    dsimp only
    rw [hrc]
    dsimp only
    rw [ho]
    dsimp only
    rw [hG1, hF]
  -- phase 7: evaluation to the settled circuit
  have hwfF : WellFormed F := ⟨hS6, hA6⟩
  have hev : updateN F (update_order F) (maxRank F + 1) = some (settle F) := by
    rw [updateN_eq_syncIter hwfF, syncIter_eq_settle hwfF (Nat.le_succ _)]
  -- phase 8: growth chains into F
  have hnF : F.nodes = c4.nodes := by rw [hn6, hn5]
  have hGc4F : Grows c4 F := by
    refine ⟨?_, fun q _ => by rw [hshape6 q, hshape5 q]⟩
    rw [hnF]
  have hGc3F : Grows c3 F := grows_trans hgE4.toGrows hGc4F
  have hGchF : Grows ch F := grows_trans hgE3.toGrows hGc3F
  -- phase 9: input nodes denote the operand bits
  have hlen_as : as.length = m + 1 := by rw [has'', List.length_range']
  have hlen_bs : bs.length = m + 1 := by rw [hbs', List.length_range']
  have hkindA : ∀ i ∈ as, F.nodes[i]? = some Gate.Input := by
    intro i hi
    rw [hn6, hn5]
    exact (hfactA4 i hi).1
  have hkindB : ∀ i ∈ bs, F.nodes[i]? = some Gate.Input := by
    intro i hi
    rw [hn6]
    exact (hfactB5 i hi).1
  have hdenA : ∀ j, (_ : j < m + 1) → denote F (1 + j) = Nat.testBit A j := by
    intro j hj
    have hgd : as.getD j 0 = 1 + j := by
      rw [has'', List.getD_eq_getElem?_getD, List.getElem?_range' _ _ hj,
        Option.getD_some, Nat.one_mul]
    have h5 := hidx5 j (by omega)
    rw [hgd] at h5
    have hnb : (1 + j) ∉ bs := by
      rw [hbs']
      intro hmem
      have := List.mem_range'_1.mp hmem
      omega
    have hincF : incoming F (1 + j) = [⟨0, 1 + j, get_bit A j⟩] := by
      rw [hoth6 _ hnb, h5, Nat.zero_add]
    rw [← get_bit_eq_testBit]
    exact denote_input hS6
      (hkindA _ (by rw [has'']; exact List.mem_range'_1.mpr ⟨by omega, by omega⟩)) hincF
  have hdenB : ∀ j, (_ : j < m + 1) → denote F (m + 2 + j) = Nat.testBit B j := by
    intro j hj
    have hgd : bs.getD j 0 = m + 2 + j := by
      rw [hbs', List.getD_eq_getElem?_getD, List.getElem?_range' _ _ hj,
        Option.getD_some, Nat.one_mul]
    have h6 := hidx6 j (by omega)
    rw [hgd] at h6
    have hincF : incoming F (m + 2 + j) = [⟨0, m + 2 + j, get_bit B j⟩] := by
      rw [h6, Nat.zero_add]
    rw [← get_bit_eq_testBit]
    exact denote_input hS6
      (hkindB _ (by rw [hbs']; exact List.mem_range'_1.mpr ⟨by omega, by omega⟩)) hincF
  -- phase 10: adder semantics at F
  obtain ⟨hsemS0, hsemCo0⟩ := hsemHA F hGchF hS6
  have hden1 : denote F 1 = Nat.testBit A 0 := hdenA 0 (by omega)
  have hdenm2 : denote F (m + 2) = Nat.testBit B 0 := hdenB 0 (by omega)
  have hs0val : denote F s0 = xor (Nat.testBit A 0) (Nat.testBit B 0) := by
    rw [hsemS0, hden1, hdenm2]
  have hco0val : denote F co0 = carryB A B 1 := by
    rw [hsemCo0, hden1, hdenm2, carryB_succ, carryB_zero]
    simp
  have hsem := hsemRL F hGc3F hS6
    (fun t => Nat.testBit A (t + 1)) (fun t => Nat.testBit B (t + 1))
    (by
      intro t ht
      rw [hpairslen] at ht
      rw [zip_range'_getD m 2 (m + 3) t ht]
      dsimp only
      rw [show 2 + t = 1 + (t + 1) from by omega, hdenA (t + 1) (by omega)])
    (by
      intro t ht
      rw [hpairslen] at ht
      rw [zip_range'_getD m 2 (m + 3) t ht]
      dsimp only
      rw [show m + 3 + t = m + 2 + (t + 1) from by omega, hdenB (t + 1) (by omega)])
  obtain ⟨hbitRL, _⟩ := hsem
  have hbit : ∀ j, (_ : j < m + 1) →
      denote F ((s0 :: ss).getD j 0) = Nat.testBit (A + B) j := by
    intro j hj
    cases j with
    | zero =>
      show denote F s0 = Nat.testBit (A + B) 0
      rw [hs0val, testBit_add_carry, carryB_zero]
      simp
    | succ j =>
      show denote F (ss.getD j 0) = Nat.testBit (A + B) (j + 1)
      rw [hbitRL j (by rw [hpairslen]; omega), hco0val, carrySeq_testBit A B j,
        ← testBit_add_carry]
  -- phase 11: reading the sum bits through the output gates
  have hread : ∀ j, (_ : j < m + 1) →
      get_1_in (settle F) (outs.getD j 0) = some (denote F ((s0 :: ss).getD j 0)) := by
    intro j hj
    have hj2 : j < (s0 :: ss).length := by
      rw [List.length_cons, hsslen, hpairslen]
      omega
    obtain ⟨hok, hoinc, holow⟩ := hofact j hj2
    have hnotas : outs.getD j 0 ∉ as := by
      rw [has'']
      intro hmem
      have := List.mem_range'_1.mp hmem
      omega
    have hnotbs : outs.getD j 0 ∉ bs := by
      rw [hbs']
      intro hmem
      have := List.mem_range'_1.mp hmem
      omega
    have hkF : F.nodes[outs.getD j 0]? = some Gate.Output := by
      rw [hn6, hn5]
      exact hok
    have hincF : incoming F (outs.getD j 0)
        = [⟨(s0 :: ss).getD j 0, outs.getD j 0, false⟩] := by
      rw [hoth6 _ hnotbs, hoth5 _ hnotas, hoinc]
    have h0src : (s0 :: ss).getD j 0 ≠ 0 := by
      cases j with
      | zero =>
        show s0 ≠ 0
        omega
      | succ j =>
        show ss.getD j 0 ≠ 0
        have hjm : j < ss.length := by rw [hsslen, hpairslen]; omega
        have hmem : ss.getD j 0 ∈ ss := by
          rw [List.getD_eq_getElem ss 0 hjm]
          exact List.getElem_mem _
        have := (hssmem _ hmem).2
        omega
    exact get_1_in_settle_output hkF hincF h0src
  -- phase 12: assembling the integer
  have hmap : outs.map (fun o => (get_1_in (settle F) o).getD false)
      = (List.range (m + 1)).map (Nat.testBit (A + B)) := by
    apply List.ext_getElem?
    intro i
    by_cases hi : i < m + 1
    · have h1i : i < outs.length := by omega
      rw [List.getElem?_map, List.getElem?_map, List.getElem?_range hi,
        List.getElem?_eq_getElem h1i]
      simp only [Option.map_eq_map, Option.map_some']
      rw [show outs[i] = outs.getD i 0 from (List.getD_eq_getElem outs 0 h1i).symm,
        hread i hi, hbit i hi]
      rfl
    · rw [List.getElem?_map, List.getElem?_map,
        List.getElem?_eq_none (by rw [houtlen']; omega),
        List.getElem?_eq_none (by rw [List.length_range]; omega)]
      rfl
  refine ⟨F, outs, hpipe, hev, ?_⟩
  rw [hmap]
  exact natOfBits_range_testBit (A + B) (m + 1)

/-- C4: for every n ≥ 1 and all a, b in [0, 2^n), in a circuit built by
`ripple_carry` over n-bit `Input` vectors for a and b (least-significant bit
first), after setting the input bits of a and b and evaluating until settled
(max rank + 1 passes with the `update_order()` ordering), reading the sum-bit
nodes through their `Output` gates and reassembling them as an n-bit unsigned
integer yields (a + b) mod 2^n. -/
theorem C4_ripple_carry_correct (n A B : Nat) (hn : 1 ≤ n)
    (_hA : A < 2 ^ n) (_hB : B < 2 ^ n) :
    ∃ F outs F', rippleCircuit n A B = some (F, outs) ∧
      updateN F (update_order F) (maxRank F + 1) = some F' ∧
      natOfBits (outs.map fun o => (get_1_in F' o).getD false) = (A + B) % 2 ^ n := by
  obtain ⟨m, rfl⟩ : ∃ m, n = m + 1 := ⟨n - 1, by omega⟩
  obtain ⟨F, outs, hp, he, hv⟩ := rippleCircuit_spec m A B
  exact ⟨F, outs, settle F, hp, he, hv⟩

/-- Witness for C4 at n = 2, a = 1, b = 2: the claim's hypotheses hold and the
settled circuit reassembles the sum 3 = (1 + 2) mod 4. -/
theorem C4_ripple_carry_correct_witness :
    1 ≤ 2 ∧ (1 : Nat) < 2 ^ 2 ∧ (2 : Nat) < 2 ^ 2 ∧
    ∃ F outs F', rippleCircuit 2 1 2 = some (F, outs) ∧
      updateN F (update_order F) (maxRank F + 1) = some F' ∧
      natOfBits (outs.map fun o => (get_1_in F' o).getD false) = (1 + 2) % 2 ^ 2 :=
  ⟨by decide, by decide, by decide,
    C4_ripple_carry_correct 2 1 2 (by decide) (by decide) (by decide)⟩

end Circuit
